import Mathlib

/-!
Verification of the vector-store and retrieval core of Smart-Support-Buddy.

Shallow embedding of `backend/app/services/faiss_client.py` (class
`FaissCollection`), `backend/app/utils/retrievers.py` (`BM25Retriever`) and
`backend/app/utils/rag_pipeline.py` (`RAGHybridFusedRerank`).

Modelling conventions:
* Python dicts become association lists (`List (k × v)`) with first-match
  lookup; `d[k] = v` updates in place or appends (`pyIns`), `d.pop(k, None)`
  removes the first entry with the key (`pyErase`).  Python dicts preserve
  insertion order, as the association lists do.
* float values (embeddings, scores) are modelled as `ℚ`: every claim under
  verification is about ordering, filtering and state manipulation, not about
  rounding, so exact rationals are a faithful carrier for the comparisons.
* The FAISS index (`IndexFlatL2` wrapped in `IndexIDMap`) is modelled as the
  list of its `(internal_id, vector)` pairs; `ntotal` is the list length,
  `add_with_ids` appends, `remove_ids` filters, `search` sorts by squared
  L2 distance (the source reports `sqrt` of it, which does not change the
  ranking; no claim mentions the numeric distance values).
* Fallible foreign calls (`index.add_with_ids`, `index.remove_ids`, pickle and
  index file reads, the injected LLM) are modelled by explicit success/failure
  oracles, because the source wraps each of them in `try`/`except`.
* `np.array(embeddings).shape[1] != d` raises for a ragged input as well as
  for a uniform wrong width; both outcomes are a `ValueError` raised before
  any state mutation, so the dimension guard is modelled as
  `embeds.any (fun e => e.length ≠ dim)`.
* The state carries a ghost field `assigned` recording every internal id ever
  handed out, and a `disk` field recording the last persisted image; neither
  influences any computed result, they only let theorems speak about id reuse
  and about what `_save` wrote.
-/

deriving instance DecidableEq for Except

/-! ## Python-dict style association lists -/

def pyLookup [DecidableEq α] : List (α × β) → α → Option β
  | [], _ => none
  | (k, v) :: t, a => if k = a then some v else pyLookup t a

def pyIns [DecidableEq α] : List (α × β) → α → β → List (α × β)
  | [], a, b => [(a, b)]
  | (k, v) :: t, a, b => if k = a then (a, b) :: t else (k, v) :: pyIns t a b

def pyErase [DecidableEq α] : List (α × β) → α → List (α × β)
  | [], _ => []
  | (k, v) :: t, a => if k = a then t else (k, v) :: pyErase t a

def keysOf (m : List (α × β)) : List α := m.map Prod.fst

def swapPair (p : α × β) : β × α := (p.2, p.1)

section PyDictLemmas

variable {α : Type _} {β : Type _}

@[simp] theorem keysOf_nil : keysOf ([] : List (α × β)) = [] := rfl

@[simp] theorem keysOf_cons (k : α) (v : β) (t : List (α × β)) :
    keysOf ((k, v) :: t) = k :: keysOf t := rfl

@[simp] theorem keysOf_append (m e : List (α × β)) :
    keysOf (m ++ e) = keysOf m ++ keysOf e := by
  simp [keysOf]

theorem mem_keys_of_mem {m : List (α × β)} {a : α} {b : β} (h : (a, b) ∈ m) :
    a ∈ keysOf m := List.mem_map_of_mem Prod.fst h

theorem map_swapPair_swapPair (m : List (α × β)) :
    (m.map swapPair).map swapPair = m := by
  induction m with
  | nil => rfl
  | cons p t ih => simp [swapPair, ih]

variable [DecidableEq α]

theorem pyLookup_eq_none {m : List (α × β)} {a : α} :
    pyLookup m a = none ↔ a ∉ keysOf m := by
  induction m with
  | nil => simp [pyLookup]
  | cons p t ih =>
    obtain ⟨k, v⟩ := p
    by_cases h : k = a
    · subst h
      simp [pyLookup]
    · simp [pyLookup, h, Ne.symm h, ih]

theorem pyLookup_isSome_of_mem {m : List (α × β)} {a : α} (h : a ∈ keysOf m) :
    (pyLookup m a).isSome := by
  cases hl : pyLookup m a with
  | none => exact absurd (pyLookup_eq_none.mp hl) (by simp [h])
  | some v => simp

theorem pyLookup_mem {m : List (α × β)} {a : α} {b : β}
    (h : pyLookup m a = some b) : (a, b) ∈ m := by
  induction m with
  | nil => simp [pyLookup] at h
  | cons p t ih =>
    obtain ⟨k, v⟩ := p
    by_cases hk : k = a
    · subst hk
      simp [pyLookup] at h
      simp [h]
    · simp [pyLookup, hk] at h
      exact List.mem_cons_of_mem _ (ih h)

theorem pyLookup_append_left {m e : List (α × β)} {a : α} {b : β}
    (h : pyLookup m a = some b) : pyLookup (m ++ e) a = some b := by
  induction m with
  | nil => simp [pyLookup] at h
  | cons p t ih =>
    obtain ⟨k, v⟩ := p
    by_cases hk : k = a
    · subst hk
      simp [pyLookup] at h ⊢
      exact h
    · simp [pyLookup, hk] at h ⊢
      exact ih h

theorem pyLookup_append_right {m e : List (α × β)} {a : α}
    (h : pyLookup m a = none) : pyLookup (m ++ e) a = pyLookup e a := by
  induction m with
  | nil => simp
  | cons p t ih =>
    obtain ⟨k, v⟩ := p
    by_cases hk : k = a
    · subst hk
      simp [pyLookup] at h
    · simp [pyLookup, hk] at h ⊢
      exact ih h

theorem pyIns_fresh {m : List (α × β)} {a : α} (b : β)
    (h : pyLookup m a = none) : pyIns m a b = m ++ [(a, b)] := by
  induction m with
  | nil => simp [pyIns]
  | cons p t ih =>
    obtain ⟨k, v⟩ := p
    by_cases hk : k = a
    · subst hk
      simp [pyLookup] at h
    · simp [pyLookup, hk] at h
      simp [pyIns, hk, ih h]

theorem pyErase_not_mem {m : List (α × β)} {a : α}
    (h : pyLookup m a = none) : pyErase m a = m := by
  induction m with
  | nil => simp [pyErase]
  | cons p t ih =>
    obtain ⟨k, v⟩ := p
    by_cases hk : k = a
    · subst hk
      simp [pyLookup] at h
    · simp [pyLookup, hk] at h
      simp [pyErase, hk, ih h]

theorem pyErase_cons_head {t : List (α × β)} {a : α} {b : β} :
    pyErase ((a, b) :: t) a = t := by
  simp [pyErase]

theorem pyErase_append_right {m e : List (α × β)} {a : α}
    (h : pyLookup m a = none) : pyErase (m ++ e) a = m ++ pyErase e a := by
  induction m with
  | nil => simp
  | cons p t ih =>
    obtain ⟨k, v⟩ := p
    by_cases hk : k = a
    · subst hk
      simp [pyLookup] at h
    · simp [pyLookup, hk] at h
      simp [pyErase, hk, ih h]

theorem pyErase_sublist (m : List (α × β)) (a : α) : (pyErase m a).Sublist m := by
  induction m with
  | nil => simp [pyErase]
  | cons p t ih =>
    obtain ⟨k, v⟩ := p
    by_cases hk : k = a
    · simp [pyErase, hk]
    · simpa [pyErase, hk] using ih.cons₂ (k, v)

theorem pyLookup_pyErase_ne {m : List (α × β)} {a x : α} (h : x ≠ a) :
    pyLookup (pyErase m a) x = pyLookup m x := by
  induction m with
  | nil => simp [pyErase]
  | cons p t ih =>
    obtain ⟨k, v⟩ := p
    by_cases hk : k = a
    · subst hk
      simp [pyErase, pyLookup, Ne.symm h]
    · by_cases hx : k = x
      · subst hx
        simp [pyErase, hk, pyLookup]
      · simp [pyErase, hk, pyLookup, hx, ih]

theorem mem_keys_pyErase {m : List (α × β)} {a x : α}
    (hnd : (keysOf m).Nodup) :
    (x ∈ keysOf (pyErase m a) ↔ x ∈ keysOf m ∧ x ≠ a) := by
  induction m with
  | nil => simp [pyErase]
  | cons p t ih =>
    obtain ⟨k, v⟩ := p
    rw [keysOf_cons, List.nodup_cons] at hnd
    by_cases hk : k = a
    · subst hk
      rw [show pyErase ((k, v) :: t) k = t from pyErase_cons_head]
      constructor
      · intro hx
        have hxk : x ≠ k := fun hxe => hnd.1 (hxe ▸ hx)
        exact ⟨List.mem_cons_of_mem _ hx, hxk⟩
      · rintro ⟨hx, hxa⟩
        rcases List.mem_cons.mp hx with h | h
        · exact absurd h hxa
        · exact h
    · rw [show pyErase ((k, v) :: t) a = (k, v) :: pyErase t a by simp [pyErase, hk]]
      simp only [keysOf_cons, List.mem_cons, ih hnd.2]
      constructor
      · rintro (rfl | ⟨hx, hxa⟩)
        · exact ⟨Or.inl rfl, fun hxe => hk (by rw [hxe])⟩
        · exact ⟨Or.inr hx, hxa⟩
      · rintro ⟨rfl | hx, hxa⟩
        · exact Or.inl rfl
        · exact Or.inr ⟨hx, hxa⟩

theorem pyLookup_of_mem_nodup {m : List (α × β)} {a : α} {b : β}
    (hnd : (keysOf m).Nodup) (h : (a, b) ∈ m) : pyLookup m a = some b := by
  induction m with
  | nil => simp at h
  | cons p t ih =>
    obtain ⟨k, v⟩ := p
    rw [keysOf_cons, List.nodup_cons] at hnd
    rcases List.mem_cons.mp h with h | h
    · cases h
      simp [pyLookup]
    · have hka : k ≠ a := by
        intro hk
        subst hk
        exact hnd.1 (mem_keys_of_mem h)
      simp [pyLookup, hka]
      exact ih hnd.2 h

theorem pyErase_map_swapPair [DecidableEq β] {m : List (α × β)} {a : α} {i : β}
    (hvals : (m.map Prod.snd).Nodup) (h : pyLookup m a = some i) :
    pyErase (m.map swapPair) i = (pyErase m a).map swapPair := by
  induction m with
  | nil => simp [pyLookup] at h
  | cons p t ih =>
    obtain ⟨k, v⟩ := p
    rw [List.map_cons, List.nodup_cons] at hvals
    by_cases hk : k = a
    · subst hk
      simp [pyLookup] at h
      subst h
      simp [pyErase, swapPair]
    · simp [pyLookup, hk] at h
      have hiv : v ≠ i := by
        intro hv
        have hmm : i ∈ t.map Prod.snd := List.mem_map_of_mem Prod.snd (pyLookup_mem h)
        rw [← hv] at hmm
        exact hvals.1 hmm
      rw [show ((k, v) :: t).map swapPair = (v, k) :: t.map swapPair by simp [swapPair]]
      rw [show pyErase ((v, k) :: t.map swapPair) i = (v, k) :: pyErase (t.map swapPair) i
          by simp [pyErase, hiv]]
      rw [show pyErase ((k, v) :: t) a = (k, v) :: pyErase t a by simp [pyErase, hk]]
      simp [swapPair, ih hvals.2 h]

end PyDictLemmas

/-! ## Data model of `FaissCollection` -/

/-- Metadata dict of one record: string keys to string values (the claims only
compare values for equality, so `String` is a faithful carrier). -/
def Meta : Type := List (String × String)

instance : DecidableEq Meta := inferInstanceAs (DecidableEq (List (String × String)))

/-- The persisted FAISS index file as `faiss.read_index` reports it: whether it
is an `IndexIDMap`, its declared dimension `d`, and its id/vector pairs. -/
structure LoadedIndex where
  isIDMap : Bool
  d : Nat
  entries : List (Nat × List ℚ)
deriving DecidableEq

/-- The pickled metadata blob written by `_save`: the four fields
`metadata`, `documents`, `faiss_map` and `next_id`. -/
structure SavedData where
  metadata : List (String × Meta)
  documents : List (String × String)
  faissMap : List (Nat × String)
  nextId : Nat
deriving DecidableEq

/-- One persisted image of a collection: index file plus metadata blob. -/
structure Disk where
  indexFile : LoadedIndex
  metaFile : SavedData
deriving DecidableEq

/-- In-memory state of one `FaissCollection`. `dim` is the configured
dimension, `index` the FAISS index contents; the five store fields mirror the
Python attributes of the same names.  `disk` records what `_save` last wrote
(`none` = nothing written since construction) and `assigned` is a ghost trace
of every internal id ever handed out by `add`. -/
structure CollState where
  dim : Nat
  index : List (Nat × List ℚ)
  metadata_store : List (String × Meta)
  doc_store : List (String × String)
  faiss_id_to_doc_id : List (Nat × String)
  doc_id_to_faiss_id : List (String × Nat)
  next_internal_id : Nat
  disk : Option Disk
  assigned : List Nat
deriving DecidableEq

/-- Image of the index file written by `faiss.write_index` in `_save`. -/
def saveIndexFile (s : CollState) : LoadedIndex :=
  { isIDMap := true, d := s.dim, entries := s.index }

/-- Image of the pickled metadata blob written by `_save`. -/
def saveMetaFile (s : CollState) : SavedData :=
  { metadata := s.metadata_store, documents := s.doc_store,
    faissMap := s.faiss_id_to_doc_id, nextId := s.next_internal_id }

def saveDisk (s : CollState) : Disk :=
  { indexFile := saveIndexFile s, metaFile := saveMetaFile s }

/-- A freshly created, empty collection (new `IndexFlatL2` + `IndexIDMap`,
all stores reset). -/
def initState (dm : Nat) : CollState :=
  { dim := dm, index := [], metadata_store := [], doc_store := [],
    faiss_id_to_doc_id := [], doc_id_to_faiss_id := [],
    next_internal_id := 0, disk := none, assigned := [] }

/-- Model of `FaissCollection._load`.  `indexFile`/`metaFile` are the on-disk files:
`none` = the file does not exist, `some (.error ())` = reading it throws,
`some (.ok _)` = it parses.  Mirrors the source control flow: the index is
dropped when it is not an `IndexIDMap` or its dimension mismatches; a loaded
metadata blob is reset when the index did not load; a metadata read error also
drops an already-loaded index; a missing metadata file resets nothing.
(The Python dict comprehension rebuilding `doc_id_to_faiss_id` keeps the last
entry for a duplicated document id; `_save` never writes such a blob, and the
claims evaluate `_load` only on well-formed or absent blobs, so the rebuild is
modelled as `map swapPair`.) -/
def loadState (dm : Nat) (indexFile : Option (Except Unit LoadedIndex))
    (metaFile : Option (Except Unit SavedData)) : CollState :=
  let step1 : Option (List (Nat × List ℚ)) × Bool :=
    match indexFile with
    | none => (none, false)
    | some (.error _) => (none, false)
    | some (.ok li) =>
      if li.isIDMap = false then (none, false)
      else if li.d ≠ dm then (none, false)
      else (some li.entries, true)
  let step2 : Option (List (Nat × List ℚ)) × List (String × Meta) ×
      List (String × String) × List (Nat × String) × List (String × Nat) × Nat :=
    match metaFile with
    | none => (step1.1, [], [], [], [], 0)
    | some (.error _) => ((if step1.2 then none else step1.1), [], [], [], [], 0)
    | some (.ok sd) =>
      if step1.2 then
        (step1.1, sd.metadata, sd.documents, sd.faissMap,
          sd.faissMap.map swapPair, sd.nextId)
      else (step1.1, [], [], [], [], 0)
  match step2.1 with
  | none => initState dm
  | some entries =>
    { dim := dm, index := entries, metadata_store := step2.2.1,
      doc_store := step2.2.2.1, faiss_id_to_doc_id := step2.2.2.2.1,
      doc_id_to_faiss_id := step2.2.2.2.2.1,
      next_internal_id := step2.2.2.2.2.2, disk := none, assigned := [] }

/-- Model of `count`: `self.index.ntotal` (the index is always initialised here). -/
def countOp (s : CollState) : Nat := s.index.length

/-! ## `add` -/

/-- Validation failures raised by `add` (all `ValueError` in the source) plus
the re-raised exception of a failed `index.add_with_ids`. -/
inductive AddError where
  | lenMismatch
  | metaLenMismatch
  | docLenMismatch
  | dimMismatch
  | indexAddFailed
deriving DecidableEq

/-- One loop iteration's view of the zipped inputs: `ids[i]`,
`embeddings[i]`, and (when the optional lists are truthy) `metadatas[i]`
and `documents[i]`. -/
structure Row where
  rid : String
  emb : List ℚ
  meta? : Option Meta
  doc? : Option String
deriving DecidableEq

/-- Python truthiness of the optional list arguments: `None` and `[]` are
both falsy. -/
def truthy : Option (List γ) → Bool
  | none => false
  | some l => !l.isEmpty

/-- Zip the validated inputs into per-iteration rows (lengths have been
checked equal wherever the optional lists are truthy). -/
def mkRows : List String → List (List ℚ) → Option (List Meta) →
    Option (List String) → List Row
  | [], _, _, _ => []
  | i :: ids, embs, ms, ds =>
    { rid := i, emb := embs.headD [],
      meta? := if truthy ms then (ms.getD []).head? else none,
      doc? := if truthy ds then (ds.getD []).head? else none } ::
      mkRows ids embs.tail (ms.map List.tail) (ds.map List.tail)

/-- The `for i, doc_id in enumerate(ids)` loop of `add`: skips ids already in
`doc_id_to_faiss_id`, otherwise assigns the next internal id, extends the four
maps, and collects the embeddings/ids to hand to `add_with_ids` plus the
`added_doc_ids` list.  Returns (state, embeddings to add, added doc ids). -/
def addLoop : CollState → List Row → CollState × List (Nat × List ℚ) × List String
  | s, [] => (s, [], [])
  | s, r :: rest =>
    if (pyLookup s.doc_id_to_faiss_id r.rid).isSome then addLoop s rest
    else
      let internal := s.next_internal_id
      let s1 : CollState :=
        { s with
          doc_id_to_faiss_id := pyIns s.doc_id_to_faiss_id r.rid internal
          faiss_id_to_doc_id := pyIns s.faiss_id_to_doc_id internal r.rid
          metadata_store :=
            match r.meta? with
            | some m => pyIns s.metadata_store r.rid m
            | none => s.metadata_store
          doc_store :=
            match r.doc? with
            | some d => pyIns s.doc_store r.rid d
            | none => s.doc_store
          next_internal_id := internal + 1
          assigned := s.assigned ++ [internal] }
      match addLoop s1 rest with
      | (sf, toAdd, added) => (sf, (internal, r.emb) :: toAdd, r.rid :: added)

/-- The `except` branch of `add`: pop the provisional entries for one
`doc_id` from all four maps (`next_internal_id` is deliberately not
restored). -/
def rollback1 (s : CollState) (a : String) : CollState :=
  match pyLookup s.doc_id_to_faiss_id a with
  | some i =>
    { s with doc_id_to_faiss_id := pyErase s.doc_id_to_faiss_id a
           , faiss_id_to_doc_id := pyErase s.faiss_id_to_doc_id i
           , metadata_store := pyErase s.metadata_store a
           , doc_store := pyErase s.doc_store a }
  | none =>
    { s with doc_id_to_faiss_id := pyErase s.doc_id_to_faiss_id a
           , metadata_store := pyErase s.metadata_store a
           , doc_store := pyErase s.doc_store a }

/-- Model of `FaissCollection.add`.  `insertFails` is the oracle for whether
`index.add_with_ids` throws.  Returns the state after the call together with
its outcome (`.error _` = the Python call raises). -/
def addOp (s : CollState) (ids : List String) (embeds : List (List ℚ))
    (metadatas : Option (List Meta)) (documents : Option (List String))
    (insertFails : Bool) : CollState × Except AddError Unit :=
  if ids.isEmpty || embeds.isEmpty then (s, .ok ())
  else if ids.length ≠ embeds.length then (s, .error .lenMismatch)
  else if truthy metadatas ∧ ids.length ≠ (metadatas.getD []).length then
    (s, .error .metaLenMismatch)
  else if truthy documents ∧ ids.length ≠ (documents.getD []).length then
    (s, .error .docLenMismatch)
  else if embeds.any (fun e => e.length ≠ s.dim) then (s, .error .dimMismatch)
  else
    match addLoop s (mkRows ids embeds metadatas documents) with
    | (sf, toAdd, added) =>
      if toAdd.isEmpty then (sf, .ok ())
      else if insertFails then (added.foldl rollback1 sf, .error .indexAddFailed)
      else
        let s2 : CollState := { sf with index := sf.index ++ toAdd }
        ({ s2 with disk := some (saveDisk s2) }, .ok ())

/-! ## `delete` -/

/-- The deletion loop of `delete`: pop each requested id from
`doc_id_to_faiss_id` and, when present, drop its entries from the other three
maps, collecting the internal ids to remove and the returned
`deleted_doc_ids`. -/
def delLoop : CollState → List String → CollState × List Nat × List String
  | s, [] => (s, [], [])
  | s, a :: rest =>
    match pyLookup s.doc_id_to_faiss_id a with
    | some i =>
      let s1 : CollState :=
        { s with doc_id_to_faiss_id := pyErase s.doc_id_to_faiss_id a
               , faiss_id_to_doc_id := pyErase s.faiss_id_to_doc_id i
               , metadata_store := pyErase s.metadata_store a
               , doc_store := pyErase s.doc_store a }
      match delLoop s1 rest with
      | (sf, rem, del) => (sf, i :: rem, a :: del)
    | none => delLoop s rest

/-- Model of `FaissCollection.delete` with id list only (`where`/`where_document` are
ignored with a warning in the source).  `removeFails` is the oracle for
whether `index.remove_ids` throws; that exception is caught and logged, never
re-raised, and on that path `_save` is not called.  The result is
`.error` never (mirroring that `delete` itself cannot raise) and carries the
returned `deleted_doc_ids`. -/
def deleteOp (s : CollState) (ids : Option (List String)) (removeFails : Bool) :
    CollState × Except Unit (List String) :=
  match ids with
  | none => (s, .ok [])
  | some l =>
    if l.isEmpty then (s, .ok [])
    else
      match delLoop s l with
      | (sf, rem, del) =>
        if rem.isEmpty then (sf, .ok del)
        else
          match (if removeFails then Except.error () else Except.ok ()) with
          | .error _ => (sf, .ok del)
          | .ok _ =>
            let s2 : CollState :=
              { sf with index := sf.index.filter (fun p => decide (p.1 ∉ rem)) }
            ({ s2 with disk := some (saveDisk s2) }, .ok del)

/-! ## Filters, `query`, `get` -/

/-- A `where` clause: an equality filter, one required key/value pair per
entry (`_matches_where` checks `key in metadata and metadata[key] == value`
for every pair). -/
def WhereClause : Type := List (String × String)

/-- A `where_document` clause: either `{"$contains": term}` or any other,
unsupported shape (which `_matches_where_document` warns about and treats as
matching nothing). -/
inductive WhereDoc where
  | contains (term : String)
  | unsupported
deriving DecidableEq

/-- Python's `needle in haystack` on strings, on the character lists. -/
def strContainsL (needle : List Char) : List Char → Bool
  | [] => needle.isEmpty
  | c :: t => needle.isPrefixOf (c :: t) || strContainsL needle t

def strContains (hay needle : String) : Bool :=
  strContainsL needle.toList hay.toList

/-- Model of `FaissCollection._matches_where`; `if not metadata: return False` makes
both an absent and an empty metadata dict match nothing. -/
def matchesWhere (md : Option Meta) (w : WhereClause) : Bool :=
  match md with
  | none => false
  | some m =>
    if m.isEmpty then false
    else w.all (fun kv => decide (pyLookup m kv.1 = some kv.2))

/-- Model of `FaissCollection._matches_where_document`; `if not document: return
False` makes an absent or empty document match nothing, and a clause without
`$contains` matches nothing. -/
def matchesWhereDoc (doc : Option String) (wd : WhereDoc) : Bool :=
  match doc with
  | none => false
  | some t =>
    if t.isEmpty then false
    else
      match wd with
      | .contains term => strContains t term
      | .unsupported => false

/-- The filtering loop of `get` over `potential_ids`: drop ids missing from
`doc_id_to_faiss_id`, then apply the `where` and `where_document` filters;
surviving ids carry their (possibly absent) metadata and document. -/
def getFiltered (s : CollState) (potential : List String) (w : Option WhereClause)
    (wd : Option WhereDoc) : List (String × Option Meta × Option String) :=
  potential.filterMap (fun a =>
    if (pyLookup s.doc_id_to_faiss_id a).isSome then
      let md := pyLookup s.metadata_store a
      let dc := pyLookup s.doc_store a
      if (match w with | some wc => !matchesWhere md wc | none => false) then none
      else if (match wd with | some c => !matchesWhereDoc dc c | none => false) then
        none
      else some (a, md, dc)
    else none)

/-- Result of `get` in the source's Chroma-like shape; the `metadatas` and
`documents` keys are present only when requested via `include` (modelled by
the two boolean flags). -/
structure GetResult where
  ids : List String
  metadatas : Option (List (Option Meta))
  documents : Option (List (Option String))
deriving DecidableEq

/-- Model of `FaissCollection.get`.  An explicitly passed empty id list is falsy in
`ids if ids else list(self.doc_id_to_faiss_id.keys())`, so it scans all ids;
pagination (`[start:end]` slicing) happens after filtering. -/
def getOp (s : CollState) (ids : Option (List String)) (w : Option WhereClause)
    (limit : Option Nat) (offset : Option Nat) (wd : Option WhereDoc)
    (incMeta incDoc : Bool) : GetResult :=
  let potential : List String :=
    match ids with
    | some l => if l.isEmpty then keysOf s.doc_id_to_faiss_id else l
    | none => keysOf s.doc_id_to_faiss_id
  let filtered := getFiltered s potential w wd
  let start := offset.getD 0
  let paginated :=
    match limit with
    | some lim => (filtered.drop start).take lim
    | none => filtered.drop start
  { ids := paginated.map (fun x => x.1)
    metadatas := if incMeta then some (paginated.map (fun x => x.2.1)) else none
    documents := if incDoc then some (paginated.map (fun x => x.2.2)) else none }

/-- Squared L2 distance, the quantity `IndexFlatL2` ranks by (the source
reports `sqrt` of it to the caller, which preserves the ranking). -/
def sqDist (q v : List ℚ) : ℚ := ((List.zipWith (fun a b => (a - b) ^ 2) q v).sum)

/-- Ranking relation of the FAISS search: nearer (smaller squared distance)
first. -/
def nearer (q : List ℚ) (a b : Nat × List ℚ) : Prop := sqDist q a.2 ≤ sqDist q b.2

instance (q : List ℚ) : DecidableRel (nearer q) :=
  fun a b => inferInstanceAs (Decidable (sqDist q a.2 ≤ sqDist q b.2))

/-- Result of `query` in the source's Chroma-like shape (one inner list per
processed query embedding; `distances` omitted — no claim concerns the
reported distance values, only which ids are returned). -/
structure QueryResult where
  ids : List (List String)
  metadatas : Option (List (List Meta))
  documents : Option (List (List String))
deriving DecidableEq

/-- The empty-result dictionary `query` returns for an empty index, empty
input or non-positive `k`. -/
def emptyQueryResult : QueryResult :=
  { ids := [], metadatas := some [], documents := some [] }

/-- Model of `FaissCollection.query`.  A present `where`/`where_document` clause only
triggers a warning — the filters are never applied.  Only the first query
embedding is processed; `k = min(n_results, ntotal)`; hits whose internal id
is no longer mapped are silently dropped. -/
def queryOp (s : CollState) (qembs : List (List ℚ)) (nResults : Nat)
    (incMeta incDoc : Bool) (w : Option WhereClause) (wd : Option WhereDoc) :
    Except Unit QueryResult :=
  if s.index.isEmpty then .ok emptyQueryResult
  else if qembs.isEmpty then .ok emptyQueryResult
  else if qembs.any (fun e => e.length ≠ s.dim) then .error ()
  else
    let q := qembs.headD []
    let k := Nat.min nResults s.index.length
    if k = 0 then .ok emptyQueryResult
    else
      let hits := (s.index.insertionSort (nearer q)).take k
      let finalIds := hits.filterMap (fun h => pyLookup s.faiss_id_to_doc_id h.1)
      .ok
        { ids := [finalIds]
          metadatas :=
            if incMeta then
              some [finalIds.map (fun a => (pyLookup s.metadata_store a).getD [])]
            else none
          documents :=
            if incDoc then
              some [finalIds.map (fun a => (pyLookup s.doc_store a).getD "")]
            else none }

/-! ## Mutation sequences -/

/-- One mutating call against a live collection, with its failure oracle. -/
inductive Op where
  | add (ids : List String) (embeds : List (List ℚ)) (metadatas : Option (List Meta))
      (documents : Option (List String)) (insertFails : Bool)
  | delete (ids : Option (List String)) (removeFails : Bool)

def applyOp (s : CollState) : Op → CollState
  | .add ids embeds ms ds f => (addOp s ids embeds ms ds f).1
  | .delete ids f => (deleteOp s ids f).1

def applyOps (s : CollState) (ops : List Op) : CollState := ops.foldl applyOp s

/-! ## `BM25Retriever.forward` (`retrievers.py`) -/

/-- Descending-score order used by `sorted(..., key=lambda x: x[1],
reverse=True)` over `(position, score)` pairs. -/
def scoreGe (a b : Nat × ℚ) : Prop := b.2 ≤ a.2

instance : DecidableRel scoreGe := fun a b => inferInstanceAs (Decidable (b.2 ≤ a.2))

instance : IsTotal (Nat × ℚ) scoreGe := ⟨fun a b => le_total b.2 a.2⟩

instance : IsTrans (Nat × ℚ) scoreGe := ⟨fun _ _ _ h1 h2 => le_trans h2 h1⟩

/-- The collection loop of `BM25Retriever.forward`: walk the ranked
`(position, score)` list, stopping at the first non-positive score or once
`k` documents are collected. -/
def bmCollect : List (Nat × ℚ) → Nat → List (Nat × ℚ)
  | _, 0 => []
  | [], _ + 1 => []
  | p :: t, k + 1 => if p.2 ≤ 0 then [] else p :: bmCollect t k

/-- One candidate produced by `BM25Retriever.forward`: the corpus position,
its BM25 score (stored into the metadata as `bm25_score`), the document text
and the original position's id and metadata. -/
structure BMDoc where
  pos : Nat
  score : ℚ
  text : String
  docId : Option String
  meta : Meta
deriving DecidableEq

/-- Model of `BM25Retriever.forward`: rank all corpus positions by score descending
(Python's `sorted` is stable, as is `insertionSort`), then collect at most
`k` strictly-positive-score candidates, attaching the position's text, id and
metadata. -/
def bm25Forward (scores : List ℚ) (corpus : List String)
    (docIds : List (Option String)) (metas : List Meta) (k : Nat) : List BMDoc :=
  let ranked := scores.enum.insertionSort scoreGe
  (bmCollect ranked k).map (fun p =>
    { pos := p.1, score := p.2, text := corpus.getD p.1 ""
      docId := docIds.getD p.1 none, meta := metas.getD p.1 [] })

/-! ## `RAGHybridFusedRerank.forward` (`rag_pipeline.py`) -/

/-- A retrieved `dspy.Example`: its `long_text` and optional `id` metadata
field (the other metadata plays no role in fusion/reranking/generation). -/
structure RDoc where
  id : Option String
  text : String
deriving DecidableEq

/-- The fusion key `doc.get('id', doc.get('long_text'))`. -/
def fuseKey (d : RDoc) : String :=
  match d.id with
  | some i => i
  | none => d.text

/-- Fusion: dedup-by-key insertion into `fused_docs_map` (a Python dict, so
insertion order is kept and the first occurrence of a key wins), then
`list(values())`. -/
def fuseDocs (docs : List RDoc) : List RDoc :=
  (docs.foldl
    (fun acc d => if (pyLookup acc (fuseKey d)).isSome then acc else acc ++ [(fuseKey d, d)])
    []).map Prod.snd

/-- Descending rerank-score order over documents, via the injected
cross-encoder score of each document's text against the query (the query is
baked into `score`). -/
def rerankGe (score : String → ℚ) (a b : RDoc) : Prop := score b.text ≤ score a.text

instance (score : String → ℚ) : DecidableRel (rerankGe score) :=
  fun a b => inferInstanceAs (Decidable (score b.text ≤ score a.text))

/-- Model of `RAGHybridFusedRerank.rerank`: stable sort by score descending, keep the
top `rerank_k`. -/
def rerankDocs (score : String → ℚ) (docs : List RDoc) (k : Nat) : List RDoc :=
  (docs.insertionSort (rerankGe score)).take k

/-- Model of `RAGHybridFusedRerank.forward`.  `vec`/`kw` are the two retrievers'
results, `score` the injected reranker, `gen` the outcome of the injected
LLM call `self.generate(...)` (`.error ()` = that call throws).  There is no
`try`/`except` in the source `forward`: the generation outcome is returned
as-is, so a generation exception propagates to the caller. -/
def ragForward (vec kw : List RDoc) (score : String → ℚ) (rerankK : Nat)
    (useLLM : Bool) (gen : Except Unit String) :
    Except Unit (List RDoc × Option String) :=
  let fused := fuseDocs (vec ++ kw)
  let reranked := rerankDocs score fused rerankK
  if useLLM = false then .ok (reranked, none)
  else
    match gen with
    | .ok a => .ok (reranked, some a)
    | .error e => .error e

/-! ## Store invariant and the `addLoop` characterisation -/

/-- The list `[a, a+1, ..., a+n-1]` of internal ids a run of the add loop
hands out. -/
def idRange : Nat → Nat → List Nat
  | _, 0 => []
  | a, n + 1 => a :: idRange (a + 1) n

@[simp] theorem idRange_zero (a : Nat) : idRange a 0 = [] := rfl

theorem idRange_succ (a n : Nat) : idRange a (n + 1) = a :: idRange (a + 1) n := rfl

@[simp] theorem length_idRange (a n : Nat) : (idRange a n).length = n := by
  induction n generalizing a with
  | zero => rfl
  | succ n ih => simp [idRange_succ, ih]

theorem mem_idRange {a n i : Nat} : i ∈ idRange a n ↔ a ≤ i ∧ i < a + n := by
  induction n generalizing a with
  | zero => simp
  | succ n ih =>
    simp [idRange_succ, ih]
    omega

theorem nodup_idRange (a n : Nat) : (idRange a n).Nodup := by
  induction n generalizing a with
  | zero => simp
  | succ n ih =>
    rw [idRange_succ, List.nodup_cons]
    refine ⟨fun h => ?_, ih (a + 1)⟩
    rw [mem_idRange] at h
    omega

theorem keys_map_swapPair (m : List (α × β)) :
    keysOf (m.map swapPair) = m.map Prod.snd := by
  simp [keysOf, swapPair, Function.comp]

theorem pyLookup_append_none [DecidableEq α] {m e : List (α × β)} {a : α}
    (h : pyLookup (m ++ e) a = none) :
    pyLookup m a = none ∧ pyLookup e a = none := by
  rw [pyLookup_eq_none, keysOf_append, List.mem_append] at h
  push_neg at h
  exact ⟨pyLookup_eq_none.mpr h.1, pyLookup_eq_none.mpr h.2⟩

/-- Everything the add loop does, relative to the entry state: the four maps
are extended by fresh entries, the assigned internal ids are the consecutive
run starting at `next_internal_id`, the returned `added` list holds exactly
the fresh external ids, and index/disk/dim are untouched. -/
theorem addLoop_spec (rows : List Row) :
    ∀ (s sf : CollState) (toAdd : List (Nat × List ℚ)) (added : List String),
    addLoop s rows = (sf, toAdd, added) →
    (∀ i ∈ keysOf s.faiss_id_to_doc_id, i < s.next_internal_id) →
    (∀ a ∈ keysOf s.metadata_store, a ∈ keysOf s.doc_id_to_faiss_id) →
    (∀ a ∈ keysOf s.doc_store, a ∈ keysOf s.doc_id_to_faiss_id) →
    ∃ ext : List (String × Nat), ∃ extm : List (String × Meta),
      ∃ extd : List (String × String),
      sf.doc_id_to_faiss_id = s.doc_id_to_faiss_id ++ ext ∧
      sf.faiss_id_to_doc_id = s.faiss_id_to_doc_id ++ ext.map swapPair ∧
      sf.metadata_store = s.metadata_store ++ extm ∧
      sf.doc_store = s.doc_store ++ extd ∧
      added = ext.map Prod.fst ∧
      ext.map Prod.snd = idRange s.next_internal_id ext.length ∧
      (extm.map Prod.fst).Sublist (ext.map Prod.fst) ∧
      (extd.map Prod.fst).Sublist (ext.map Prod.fst) ∧
      sf.next_internal_id = s.next_internal_id + ext.length ∧
      sf.assigned = s.assigned ++ idRange s.next_internal_id ext.length ∧
      sf.index = s.index ∧ sf.disk = s.disk ∧ sf.dim = s.dim ∧
      toAdd.map Prod.fst = idRange s.next_internal_id ext.length ∧
      (ext.map Prod.fst).Nodup ∧
      (∀ a ∈ ext.map Prod.fst, pyLookup s.doc_id_to_faiss_id a = none) := by
  induction rows with
  | nil =>
    intro s sf toAdd added heq h1 h2 h3
    simp [addLoop] at heq
    obtain ⟨rfl, rfl, rfl⟩ := heq
    exact ⟨[], [], [], by simp⟩
  | cons r rest ih =>
    intro s sf toAdd added heq h1 h2 h3
    by_cases hfresh : (pyLookup s.doc_id_to_faiss_id r.rid).isSome
    · rw [show addLoop s (r :: rest) = addLoop s rest by
        simp [addLoop, hfresh]] at heq
      exact ih s sf toAdd added heq h1 h2 h3
    · have hfnone : pyLookup s.doc_id_to_faiss_id r.rid = none := by
        cases hl : pyLookup s.doc_id_to_faiss_id r.rid with
        | none => rfl
        | some v => exact absurd (by simp [hl]) hfresh
      set n := s.next_internal_id with hn
      have hfidnone : pyLookup s.faiss_id_to_doc_id n = none := by
        rw [pyLookup_eq_none]
        intro hmem
        exact lt_irrefl n (h1 n hmem)
      have hmetanone : pyLookup s.metadata_store r.rid = none := by
        rw [pyLookup_eq_none]
        intro hmem
        exact (pyLookup_eq_none.mp hfnone) (h2 _ hmem)
      have hdocnone : pyLookup s.doc_store r.rid = none := by
        rw [pyLookup_eq_none]
        intro hmem
        exact (pyLookup_eq_none.mp hfnone) (h3 _ hmem)
      set s1 : CollState :=
        { s with
          doc_id_to_faiss_id := pyIns s.doc_id_to_faiss_id r.rid n
          faiss_id_to_doc_id := pyIns s.faiss_id_to_doc_id n r.rid
          metadata_store :=
            match r.meta? with
            | some m => pyIns s.metadata_store r.rid m
            | none => s.metadata_store
          doc_store :=
            match r.doc? with
            | some d => pyIns s.doc_store r.rid d
            | none => s.doc_store
          next_internal_id := n + 1
          assigned := s.assigned ++ [n] } with hs1
      obtain ⟨sf', toAdd', added', heq'⟩ : ∃ sf' toAdd' added',
          addLoop s1 rest = (sf', toAdd', added') :=
        ⟨_, _, _, rfl⟩
      have heq2 : sf = sf' ∧ toAdd = (n, r.emb) :: toAdd' ∧ added = r.rid :: added' := by
        rw [show addLoop s (r :: rest) =
            (match addLoop s1 rest with
             | (sf, toAdd, added) => (sf, (n, r.emb) :: toAdd, r.rid :: added)) by
          simp [addLoop, hfresh, hs1]] at heq
        rw [heq'] at heq
        simp at heq
        exact ⟨heq.1.symm, heq.2.1.symm, heq.2.2.symm⟩
      obtain ⟨rfl, rfl, rfl⟩ := heq2
      have hdid1 : s1.doc_id_to_faiss_id = s.doc_id_to_faiss_id ++ [(r.rid, n)] := by
        simp [hs1, pyIns_fresh _ hfnone]
      have hfid1 : s1.faiss_id_to_doc_id = s.faiss_id_to_doc_id ++ [(n, r.rid)] := by
        simp [hs1, pyIns_fresh _ hfidnone]
      have hkeys1 : keysOf s1.doc_id_to_faiss_id =
          keysOf s.doc_id_to_faiss_id ++ [r.rid] := by
        rw [hdid1, keysOf_append]
        rfl
      have h1' : ∀ i ∈ keysOf s1.faiss_id_to_doc_id, i < s1.next_internal_id := by
        intro i hi
        rw [hfid1, keysOf_append] at hi
        rcases List.mem_append.mp hi with h | h
        · have := h1 i h
          simp [hs1]
          omega
        · simp [keysOf] at h
          simp [hs1, h]
      have h2' : ∀ a ∈ keysOf s1.metadata_store, a ∈ keysOf s1.doc_id_to_faiss_id := by
        intro a ha
        rw [hkeys1, List.mem_append]
        rcases hr : r.meta? with _ | m
        · rw [show s1.metadata_store = s.metadata_store by simp [hs1, hr]] at ha
          exact Or.inl (h2 a ha)
        · rw [show s1.metadata_store = pyIns s.metadata_store r.rid m by
            simp [hs1, hr]] at ha
          rw [pyIns_fresh _ hmetanone, keysOf_append, List.mem_append] at ha
          rcases ha with h | h
          · exact Or.inl (h2 a h)
          · simp [keysOf] at h
            simp [h]
      have h3' : ∀ a ∈ keysOf s1.doc_store, a ∈ keysOf s1.doc_id_to_faiss_id := by
        intro a ha
        rw [hkeys1, List.mem_append]
        rcases hr : r.doc? with _ | d
        · rw [show s1.doc_store = s.doc_store by simp [hs1, hr]] at ha
          exact Or.inl (h3 a ha)
        · rw [show s1.doc_store = pyIns s.doc_store r.rid d by simp [hs1, hr]] at ha
          rw [pyIns_fresh _ hdocnone, keysOf_append, List.mem_append] at ha
          rcases ha with h | h
          · exact Or.inl (h3 a h)
          · simp [keysOf] at h
            simp [h]
      obtain ⟨ext', extm', extd', c1, c2, c3, c4, c5, c6, c7, c8, c9, c10,
        c11, c12, c13, c14, c15, c16⟩ := ih s1 _ _ _ heq' h1' h2' h3'
      have hnext1 : s1.next_internal_id = n + 1 := by simp [hs1]
      rw [hnext1] at c6 c9 c10 c14
      have hfrontm : ∃ front : List (String × Meta),
          s1.metadata_store = s.metadata_store ++ front ∧
          (((front ++ extm').map Prod.fst)).Sublist (r.rid :: ext'.map Prod.fst) := by
        rcases hr : r.meta? with _ | m
        · exact ⟨[], by simp [hs1, hr], by simpa using c7.cons r.rid⟩
        · refine ⟨[(r.rid, m)], by simp [hs1, hr, pyIns_fresh _ hmetanone], ?_⟩
          simpa using c7.cons₂ r.rid
      have hfrontd : ∃ front : List (String × String),
          s1.doc_store = s.doc_store ++ front ∧
          (((front ++ extd').map Prod.fst)).Sublist (r.rid :: ext'.map Prod.fst) := by
        rcases hr : r.doc? with _ | d
        · exact ⟨[], by simp [hs1, hr], by simpa using c8.cons r.rid⟩
        · refine ⟨[(r.rid, d)], by simp [hs1, hr, pyIns_fresh _ hdocnone], ?_⟩
          simpa using c8.cons₂ r.rid
      obtain ⟨frontm, hfm1, hfm2⟩ := hfrontm
      obtain ⟨frontd, hfd1, hfd2⟩ := hfrontd
      have hridkeys : r.rid ∈ keysOf s1.doc_id_to_faiss_id := by
        rw [hdid1, keysOf_append]
        simp
      have hridnotext : r.rid ∉ ext'.map Prod.fst := by
        intro hmem
        exact (pyLookup_eq_none.mp (c16 r.rid hmem)) hridkeys
      refine ⟨(r.rid, n) :: ext', frontm ++ extm', frontd ++ extd',
        ?_, ?_, ?_, ?_, ?_, ?_, ?_, ?_, ?_, ?_, ?_, ?_, ?_, ?_, ?_, ?_⟩
      · rw [c1, hdid1, List.append_assoc]
        rfl
      · rw [c2, hfid1, List.append_assoc]
        rfl
      · rw [c3, hfm1, List.append_assoc]
      · rw [c4, hfd1, List.append_assoc]
      · simp [c5]
      · simp only [List.map_cons, List.length_cons, idRange_succ]
        rw [c6]
      · simpa using hfm2
      · simpa using hfd2
      · rw [c9]
        simp
        omega
      · rw [c10]
        simp [hs1, idRange_succ, List.append_assoc]
      · rw [c11]
      · rw [c12]
      · rw [c13]
      · simp only [List.map_cons, List.length_cons, idRange_succ]
        rw [c14]
      · exact List.nodup_cons.mpr ⟨hridnotext, c15⟩
      · intro a ha
        rw [List.map_cons] at ha
        rcases List.mem_cons.mp ha with h | h
        · subst h
          exact hfnone
        · have := c16 a h
          rw [hdid1] at this
          exact (pyLookup_append_none this).1

/-- The well-formedness invariant of a live collection: the two id maps are
mutual inverses (stored as the literal swap of one another, as `_load`
rebuilds them), keys and values are duplicate-free, every mapped internal id
was assigned, assigned ids are pairwise distinct and all below
`next_internal_id`, and the document/metadata stores only hold mapped ids. -/
structure StoreInv (s : CollState) : Prop where
  fidEq : s.faiss_id_to_doc_id = s.doc_id_to_faiss_id.map swapPair
  keysNd : (keysOf s.doc_id_to_faiss_id).Nodup
  valsNd : (s.doc_id_to_faiss_id.map Prod.snd).Nodup
  valsAssigned : ∀ i ∈ s.doc_id_to_faiss_id.map Prod.snd, i ∈ s.assigned
  assignedNd : s.assigned.Nodup
  assignedLt : ∀ i ∈ s.assigned, i < s.next_internal_id
  metaSub : ∀ a ∈ keysOf s.metadata_store, a ∈ keysOf s.doc_id_to_faiss_id
  metaNd : (keysOf s.metadata_store).Nodup
  docSub : ∀ a ∈ keysOf s.doc_store, a ∈ keysOf s.doc_id_to_faiss_id
  docNd : (keysOf s.doc_store).Nodup

theorem StoreInv_initState (dm : Nat) : StoreInv (initState dm) := by
  constructor <;> simp [initState]

/-- Internal ids in the forward map are bounded by `next_internal_id`. -/
theorem StoreInv.fidLt {s : CollState} (h : StoreInv s) :
    ∀ i ∈ keysOf s.faiss_id_to_doc_id, i < s.next_internal_id := by
  intro i hi
  rw [h.fidEq, keys_map_swapPair] at hi
  exact h.assignedLt i (h.valsAssigned i hi)

/-- Under the invariant the two id maps are a total bijection: lookups agree
in both directions. -/
theorem StoreInv.lookup_inverse {s : CollState} (h : StoreInv s) (a : String) (i : Nat) :
    pyLookup s.doc_id_to_faiss_id a = some i ↔
      pyLookup s.faiss_id_to_doc_id i = some a := by
  constructor
  · intro hl
    rw [h.fidEq]
    have hmem : (i, a) ∈ s.doc_id_to_faiss_id.map swapPair := by
      have := pyLookup_mem hl
      exact List.mem_map.mpr ⟨(a, i), this, rfl⟩
    exact pyLookup_of_mem_nodup (by rw [keys_map_swapPair]; exact h.valsNd) hmem
  · intro hl
    rw [h.fidEq] at hl
    obtain ⟨p, hp, he⟩ := List.mem_map.mp (pyLookup_mem hl)
    obtain ⟨x, y⟩ := p
    simp [swapPair] at he
    obtain ⟨rfl, rfl⟩ := he
    exact pyLookup_of_mem_nodup h.keysNd hp

/-- Erasing the head key from a sublist-of-keys situation. -/
theorem sublist_pyErase_keys [DecidableEq α] {γ : Type _} {a : α} {ext : List α} :
    ∀ {extm : List (α × γ)}, (extm.map Prod.fst).Sublist (a :: ext) → a ∉ ext →
      ((pyErase extm a).map Prod.fst).Sublist ext := by
  intro extm
  induction extm with
  | nil =>
    intro _ _
    simp [pyErase]
  | cons q t ih =>
    intro hsm ha
    obtain ⟨b, v⟩ := q
    rw [List.map_cons] at hsm
    cases hsm with
    | cons x h =>
      have hb : pyLookup ((b, v) :: t) a = none := by
        rw [pyLookup_eq_none, keysOf_cons]
        intro hmem
        exact ha (h.mem hmem)
      rw [pyErase_not_mem hb, List.map_cons]
      exact h
    | cons₂ x h =>
      rw [pyErase_cons_head]
      exact h

/-- The rollback loop of a failed `add` removes exactly the entries the add
loop appended, restoring all four maps. -/
theorem rollback_restores :
    ∀ (ext : List (String × Nat)) (extm : List (String × Meta))
      (extd : List (String × String)) (sf : CollState)
      (did : List (String × Nat)) (fid : List (Nat × String))
      (mst : List (String × Meta)) (dst : List (String × String)),
    sf.doc_id_to_faiss_id = did ++ ext →
    sf.faiss_id_to_doc_id = fid ++ ext.map swapPair →
    sf.metadata_store = mst ++ extm →
    sf.doc_store = dst ++ extd →
    (ext.map Prod.fst).Nodup →
    (∀ a ∈ ext.map Prod.fst, pyLookup did a = none) →
    (∀ i ∈ ext.map Prod.snd, pyLookup fid i = none) →
    (extm.map Prod.fst).Sublist (ext.map Prod.fst) →
    (extd.map Prod.fst).Sublist (ext.map Prod.fst) →
    (∀ a ∈ ext.map Prod.fst, pyLookup mst a = none) →
    (∀ a ∈ ext.map Prod.fst, pyLookup dst a = none) →
    (ext.map Prod.fst).foldl rollback1 sf =
      { sf with doc_id_to_faiss_id := did, faiss_id_to_doc_id := fid,
                metadata_store := mst, doc_store := dst } := by
  intro ext
  induction ext with
  | nil =>
    intro extm extd sf did fid mst dst h1 h2 h3 h4 hnd hdid hfid hsm hsd hmst hdst
    have hm : extm = [] := by
      cases extm with
      | nil => rfl
      | cons p t => simp at hsm
    have hd : extd = [] := by
      cases extd with
      | nil => rfl
      | cons p t => simp at hsd
    subst hm hd
    simp at h1 h2 h3 h4
    simp
    cases sf
    simp_all
  | cons p ext ih =>
    intro extm extd sf did fid mst dst h1 h2 h3 h4 hnd hdid hfid hsm hsd hmst hdst
    obtain ⟨a, i⟩ := p
    rw [List.map_cons] at hnd hsm hsd
    have hand : a ∉ ext.map Prod.fst := (List.nodup_cons.mp hnd).1
    have hild : pyLookup did a = none := hdid a (by simp)
    have hifl : pyLookup fid i = none := hfid i (by simp)
    -- the first rollback step pops exactly the head entries
    have hlook : pyLookup sf.doc_id_to_faiss_id a = some i := by
      rw [h1, pyLookup_append_right hild]
      simp [pyLookup]
    have e1 : pyErase sf.doc_id_to_faiss_id a = did ++ ext := by
      rw [h1, pyErase_append_right hild, pyErase_cons_head]
    have e2 : pyErase sf.faiss_id_to_doc_id i = fid ++ ext.map swapPair := by
      rw [h2, show List.map swapPair ((a, i) :: ext) = (i, a) :: ext.map swapPair by
        simp [swapPair]]
      rw [pyErase_append_right hifl, pyErase_cons_head]
    have e3 : pyErase sf.metadata_store a = mst ++ pyErase extm a := by
      rw [h3, pyErase_append_right (hmst a (by simp))]
    have e4 : pyErase sf.doc_store a = dst ++ pyErase extd a := by
      rw [h4, pyErase_append_right (hdst a (by simp))]
    have hstep : rollback1 sf a =
        { sf with doc_id_to_faiss_id := did ++ ext,
                  faiss_id_to_doc_id := fid ++ ext.map swapPair,
                  metadata_store := mst ++ pyErase extm a,
                  doc_store := dst ++ pyErase extd a } := by
      simp only [rollback1, hlook]
      rw [e1, e2, e3, e4]
    rw [List.map_cons, List.foldl_cons, hstep]
    -- set up the tail invocation
    have hsme : ((pyErase extm a).map Prod.fst).Sublist (ext.map Prod.fst) :=
      sublist_pyErase_keys hsm hand
    have hsde : ((pyErase extd a).map Prod.fst).Sublist (ext.map Prod.fst) :=
      sublist_pyErase_keys hsd hand
    have := ih (pyErase extm a) (pyErase extd a)
      ({ sf with doc_id_to_faiss_id := did ++ ext,
                 faiss_id_to_doc_id := fid ++ ext.map swapPair,
                 metadata_store := mst ++ pyErase extm a,
                 doc_store := dst ++ pyErase extd a })
      did fid mst dst rfl rfl rfl rfl (List.nodup_cons.mp hnd).2
      (fun x hx => hdid x (by simp [hx]))
      (fun x hx => hfid x (by simp [hx]))
      hsme hsde
      (fun x hx => hmst x (by simp [hx]))
      (fun x hx => hdst x (by simp [hx]))
    rw [this]

/-- The invariant ignores `index` and `disk`, so rewriting them preserves
it. -/
theorem StoreInv_set_index_disk {sf : CollState} (h : StoreInv sf)
    (ix : List (Nat × List ℚ)) (dk : Option Disk) :
    StoreInv { sf with index := ix, disk := dk } :=
  ⟨h.fidEq, h.keysNd, h.valsNd, h.valsAssigned, h.assignedNd, h.assignedLt,
    h.metaSub, h.metaNd, h.docSub, h.docNd⟩

/-- The add loop preserves the store invariant. -/
theorem StoreInv_addLoop_result {rows : List Row} {s sf : CollState}
    {toAdd : List (Nat × List ℚ)} {added : List String}
    (heq : addLoop s rows = (sf, toAdd, added)) (hInv : StoreInv s) :
    StoreInv sf := by
  obtain ⟨ext, extm, extd, c1, c2, c3, c4, c5, c6, c7, c8, c9, c10, c11, c12,
    c13, c14, c15, c16⟩ :=
    addLoop_spec rows s sf toAdd added heq hInv.fidLt hInv.metaSub hInv.docSub
  set n := s.next_internal_id with hn
  set m := ext.length with hm
  have hfreshKeys : ∀ a ∈ keysOf ext, a ∉ keysOf s.doc_id_to_faiss_id := by
    intro a ha
    exact pyLookup_eq_none.mp (c16 a ha)
  have hkeysnd : (keysOf sf.doc_id_to_faiss_id).Nodup := by
    rw [c1, keysOf_append]
    exact hInv.keysNd.append c15 (fun a h1 h2 => hfreshKeys a h2 h1)
  have hextsndlo : ∀ i ∈ ext.map Prod.snd, n ≤ i := by
    intro i hi
    rw [c6] at hi
    exact (mem_idRange.mp hi).1
  have hvalslt : ∀ i ∈ s.doc_id_to_faiss_id.map Prod.snd, i < n := by
    intro i hi
    exact hInv.assignedLt i (hInv.valsAssigned i hi)
  constructor
  · rw [c1, c2, hInv.fidEq, List.map_append]
  · exact hkeysnd
  · rw [c1, List.map_append]
    refine hInv.valsNd.append (by rw [c6]; exact nodup_idRange n m) ?_
    intro i h1 h2
    exact absurd (hextsndlo i h2) (by simp [hvalslt i h1])
  · intro i hi
    rw [c1, List.map_append, List.mem_append] at hi
    rw [c10, List.mem_append]
    rcases hi with h | h
    · exact Or.inl (hInv.valsAssigned i h)
    · rw [c6] at h
      exact Or.inr h
  · rw [c10]
    refine hInv.assignedNd.append (nodup_idRange n m) ?_
    intro i h1 h2
    have := hInv.assignedLt i h1
    rw [mem_idRange] at h2
    omega
  · intro i hi
    rw [c10, List.mem_append] at hi
    rw [c9]
    rcases hi with h | h
    · have := hInv.assignedLt i h
      omega
    · rw [mem_idRange] at h
      omega
  · intro a ha
    rw [c3, keysOf_append, List.mem_append] at ha
    rw [c1, keysOf_append, List.mem_append]
    rcases ha with h | h
    · exact Or.inl (hInv.metaSub a h)
    · exact Or.inr (c7.mem h)
  · rw [c3, keysOf_append]
    refine hInv.metaNd.append (c7.nodup c15) ?_
    intro a h1 h2
    exact hfreshKeys a (c7.mem h2) (hInv.metaSub a h1)
  · intro a ha
    rw [c4, keysOf_append, List.mem_append] at ha
    rw [c1, keysOf_append, List.mem_append]
    rcases ha with h | h
    · exact Or.inl (hInv.docSub a h)
    · exact Or.inr (c8.mem h)
  · rw [c4, keysOf_append]
    refine hInv.docNd.append (c8.nodup c15) ?_
    intro a h1 h2
    exact hfreshKeys a (c8.mem h2) (hInv.docSub a h1)

/-- The rollback state of a failed `add`: the four maps return to their
pre-call contents while `next_internal_id` and the ghost `assigned` stay
advanced, so the invariant survives. -/
theorem StoreInv_rollback {rows : List Row} {s sf : CollState}
    {toAdd : List (Nat × List ℚ)} {added : List String}
    (heq : addLoop s rows = (sf, toAdd, added)) (hInv : StoreInv s) :
    added.foldl rollback1 sf =
      { sf with doc_id_to_faiss_id := s.doc_id_to_faiss_id,
                faiss_id_to_doc_id := s.faiss_id_to_doc_id,
                metadata_store := s.metadata_store,
                doc_store := s.doc_store } := by
  obtain ⟨ext, extm, extd, c1, c2, c3, c4, c5, c6, c7, c8, c9, c10, c11, c12,
    c13, c14, c15, c16⟩ :=
    addLoop_spec rows s sf toAdd added heq hInv.fidLt hInv.metaSub hInv.docSub
  subst c5
  refine rollback_restores ext extm extd sf _ _ _ _ c1 c2 c3 c4 c15 c16 ?_ c7 c8 ?_ ?_
  · intro i hi
    rw [c6, mem_idRange] at hi
    rw [pyLookup_eq_none]
    intro hmem
    have := hInv.fidLt i hmem
    omega
  · intro a ha
    rw [pyLookup_eq_none]
    intro hmem
    exact pyLookup_eq_none.mp (c16 a ha) (hInv.metaSub a hmem)
  · intro a ha
    rw [pyLookup_eq_none]
    intro hmem
    exact pyLookup_eq_none.mp (c16 a ha) (hInv.docSub a hmem)

/-- Lemma: `add` preserves the store invariant on every path. -/
theorem StoreInv_addOp (s : CollState) (ids : List String)
    (embeds : List (List ℚ)) (ms : Option (List Meta))
    (ds : Option (List String)) (f : Bool) (hInv : StoreInv s) :
    StoreInv (addOp s ids embeds ms ds f).1 := by
  rw [addOp]
  split
  · exact hInv
  split
  · exact hInv
  split
  · exact hInv
  split
  · exact hInv
  split
  · exact hInv
  obtain ⟨sf, toAdd, added, heq⟩ : ∃ sf toAdd added,
      addLoop s (mkRows ids embeds ms ds) = (sf, toAdd, added) := ⟨_, _, _, rfl⟩
  rw [heq]
  simp only
  split
  · exact StoreInv_addLoop_result heq hInv
  split
  · rw [StoreInv_rollback heq hInv]
    have hsf := StoreInv_addLoop_result heq hInv
    obtain ⟨ext, extm, extd, c1, c2, c3, c4, c5, c6, c7, c8, c9, c10, c11, c12,
      c13, c14, c15, c16⟩ :=
      addLoop_spec _ s sf toAdd added heq hInv.fidLt hInv.metaSub hInv.docSub
    constructor
    · exact hInv.fidEq
    · exact hInv.keysNd
    · exact hInv.valsNd
    · intro i hi
      rw [c10, List.mem_append]
      exact Or.inl (hInv.valsAssigned i hi)
    · rw [c10]
      refine hInv.assignedNd.append (nodup_idRange _ _) ?_
      intro i h1 h2
      have := hInv.assignedLt i h1
      rw [mem_idRange] at h2
      omega
    · intro i hi
      rw [c10, List.mem_append] at hi
      rw [c9]
      rcases hi with h | h
      · have := hInv.assignedLt i h
        omega
      · rw [mem_idRange] at h
        omega
    · exact hInv.metaSub
    · exact hInv.metaNd
    · exact hInv.docSub
    · exact hInv.docNd
  · exact StoreInv_set_index_disk (StoreInv_addLoop_result heq hInv) _ _

/-- Erasing one mapped id from all four maps preserves the invariant. -/
theorem StoreInv_erase_step {s : CollState} {a : String} {i : Nat}
    (hInv : StoreInv s) (hl : pyLookup s.doc_id_to_faiss_id a = some i) :
    StoreInv { s with doc_id_to_faiss_id := pyErase s.doc_id_to_faiss_id a,
                      faiss_id_to_doc_id := pyErase s.faiss_id_to_doc_id i,
                      metadata_store := pyErase s.metadata_store a,
                      doc_store := pyErase s.doc_store a } := by
  have hkeys : ∀ x, x ∈ keysOf (pyErase s.doc_id_to_faiss_id a) ↔
      x ∈ keysOf s.doc_id_to_faiss_id ∧ x ≠ a := fun x =>
    mem_keys_pyErase hInv.keysNd
  constructor
  · rw [hInv.fidEq]
    exact pyErase_map_swapPair hInv.valsNd hl
  · exact hInv.keysNd.sublist ((pyErase_sublist _ _).map Prod.fst)
  · exact hInv.valsNd.sublist ((pyErase_sublist _ _).map Prod.snd)
  · intro j hj
    exact hInv.valsAssigned j (((pyErase_sublist _ _).map Prod.snd).mem hj)
  · exact hInv.assignedNd
  · exact hInv.assignedLt
  · intro x hx
    rw [mem_keys_pyErase hInv.metaNd] at hx
    exact (hkeys x).mpr ⟨hInv.metaSub x hx.1, hx.2⟩
  · exact hInv.metaNd.sublist ((pyErase_sublist _ _).map Prod.fst)
  · intro x hx
    rw [mem_keys_pyErase hInv.docNd] at hx
    exact (hkeys x).mpr ⟨hInv.docSub x hx.1, hx.2⟩
  · exact hInv.docNd.sublist ((pyErase_sublist _ _).map Prod.fst)

/-- Full characterisation of the delete loop: invariant preserved; index,
disk, dimension, `next_internal_id` and the ghost trace untouched; every
requested id is unmapped afterwards (maps, metadata and documents); every
requested id that was live is in the returned list; the returned list only
holds requested ids; unrequested ids are untouched. -/
theorem delLoop_spec (ids : List String) :
    ∀ (s sf : CollState) (rem : List Nat) (del : List String),
    delLoop s ids = (sf, rem, del) → StoreInv s →
    StoreInv sf ∧
    sf.index = s.index ∧ sf.disk = s.disk ∧ sf.dim = s.dim ∧
    sf.next_internal_id = s.next_internal_id ∧ sf.assigned = s.assigned ∧
    (∀ a ∈ ids, pyLookup sf.doc_id_to_faiss_id a = none) ∧
    (∀ a ∈ ids, (pyLookup s.doc_id_to_faiss_id a).isSome → a ∈ del) ∧
    (∀ a ∈ del, a ∈ ids) ∧
    (∀ a ∈ ids, pyLookup sf.metadata_store a = none) ∧
    (∀ a ∈ ids, pyLookup sf.doc_store a = none) ∧
    (∀ a, a ∉ ids →
      pyLookup sf.doc_id_to_faiss_id a = pyLookup s.doc_id_to_faiss_id a ∧
      pyLookup sf.metadata_store a = pyLookup s.metadata_store a ∧
      pyLookup sf.doc_store a = pyLookup s.doc_store a) := by
  induction ids with
  | nil =>
    intro s sf rem del heq hInv
    simp [delLoop] at heq
    obtain ⟨rfl, rfl, rfl⟩ := heq
    refine ⟨hInv, rfl, rfl, rfl, rfl, rfl, by simp, by simp, by simp, by simp,
      by simp, ?_⟩
    intro a _
    exact ⟨rfl, rfl, rfl⟩
  | cons a rest ih =>
    intro s sf rem del heq hInv
    cases hl : pyLookup s.doc_id_to_faiss_id a with
    | some i =>
      set s1 : CollState :=
        { s with doc_id_to_faiss_id := pyErase s.doc_id_to_faiss_id a
               , faiss_id_to_doc_id := pyErase s.faiss_id_to_doc_id i
               , metadata_store := pyErase s.metadata_store a
               , doc_store := pyErase s.doc_store a } with hs1
      obtain ⟨sf', rem', del', heq'⟩ : ∃ sf' rem' del',
          delLoop s1 rest = (sf', rem', del') := ⟨_, _, _, rfl⟩
      have heq2 : sf = sf' ∧ rem = i :: rem' ∧ del = a :: del' := by
        rw [show delLoop s (a :: rest) =
            (match delLoop s1 rest with
             | (sf, rem, del) => (sf, i :: rem, a :: del)) by
          simp [delLoop, hl, hs1]] at heq
        rw [heq'] at heq
        simp at heq
        exact ⟨heq.1.symm, heq.2.1.symm, heq.2.2.symm⟩
      obtain ⟨rfl, rfl, rfl⟩ := heq2
      have hInv1 : StoreInv s1 := StoreInv_erase_step hInv hl
      obtain ⟨d1, d2, d3, d4, d5, d6, d7, d8, d9, d10, d11, d12⟩ :=
        ih s1 _ _ _ heq' hInv1
      have hnone1 : pyLookup s1.doc_id_to_faiss_id a = none := by
        rw [hs1]
        simp only
        rw [pyLookup_eq_none, mem_keys_pyErase hInv.keysNd]
        simp
      have hmnone1 : pyLookup s1.metadata_store a = none := by
        rw [hs1]
        simp only
        rw [pyLookup_eq_none, mem_keys_pyErase hInv.metaNd]
        simp
      have hdnone1 : pyLookup s1.doc_store a = none := by
        rw [hs1]
        simp only
        rw [pyLookup_eq_none, mem_keys_pyErase hInv.docNd]
        simp
      refine ⟨d1, by rw [d2], by rw [d3], by rw [d4], by rw [d5], by rw [d6],
        ?_, ?_, ?_, ?_, ?_, ?_⟩
      · intro x hx
        rcases List.mem_cons.mp hx with rfl | hx
        · by_cases hxr : x ∈ rest
          · exact d7 x hxr
          · rw [(d12 x hxr).1]
            exact hnone1
        · exact d7 x hx
      · intro x hx hsome
        rcases List.mem_cons.mp hx with rfl | hx
        · exact List.mem_cons_self _ _
        · by_cases hxa : x = a
          · subst hxa
            exact List.mem_cons_self _ _
          · refine List.mem_cons_of_mem _ (d8 x hx ?_)
            rw [hs1]
            simp only
            rw [pyLookup_pyErase_ne hxa]
            exact hsome
      · intro x hx
        rcases List.mem_cons.mp hx with rfl | hx
        · exact List.mem_cons_self _ _
        · exact List.mem_cons_of_mem _ (d9 x hx)
      · intro x hx
        rcases List.mem_cons.mp hx with rfl | hx
        · by_cases hxr : x ∈ rest
          · exact d10 x hxr
          · rw [(d12 x hxr).2.1]
            exact hmnone1
        · exact d10 x hx
      · intro x hx
        rcases List.mem_cons.mp hx with rfl | hx
        · by_cases hxr : x ∈ rest
          · exact d11 x hxr
          · rw [(d12 x hxr).2.2]
            exact hdnone1
        · exact d11 x hx
      · intro x hx
        have hxa : x ≠ a := fun hxe => hx (hxe ▸ List.mem_cons_self a rest)
        have hxr : x ∉ rest := fun hxe => hx (List.mem_cons_of_mem _ hxe)
        obtain ⟨e1, e2, e3⟩ := d12 x hxr
        refine ⟨?_, ?_, ?_⟩
        · rw [e1, hs1]
          simp only
          exact pyLookup_pyErase_ne hxa
        · rw [e2, hs1]
          simp only
          exact pyLookup_pyErase_ne hxa
        · rw [e3, hs1]
          simp only
          exact pyLookup_pyErase_ne hxa
    | none =>
      have heqr : delLoop s (a :: rest) = delLoop s rest := by
        simp [delLoop, hl]
      rw [heqr] at heq
      obtain ⟨d1, d2, d3, d4, d5, d6, d7, d8, d9, d10, d11, d12⟩ :=
        ih s _ _ _ heq hInv
      refine ⟨d1, d2, d3, d4, d5, d6, ?_, ?_, ?_, ?_, ?_, ?_⟩
      · intro x hx
        rcases List.mem_cons.mp hx with rfl | hx
        · by_cases hxr : x ∈ rest
          · exact d7 x hxr
          · rw [(d12 x hxr).1]
            exact hl
        · exact d7 x hx
      · intro x hx hsome
        rcases List.mem_cons.mp hx with rfl | hx
        · rw [hl] at hsome
          simp at hsome
        · exact d8 x hx hsome
      · intro x hx
        exact List.mem_cons_of_mem _ (d9 x hx)
      · intro x hx
        rcases List.mem_cons.mp hx with rfl | hx
        · by_cases hxr : x ∈ rest
          · exact d10 x hxr
          · rw [(d12 x hxr).2.1, pyLookup_eq_none]
            intro hmem
            exact pyLookup_eq_none.mp hl (hInv.metaSub x hmem)
        · exact d10 x hx
      · intro x hx
        rcases List.mem_cons.mp hx with rfl | hx
        · by_cases hxr : x ∈ rest
          · exact d11 x hxr
          · rw [(d12 x hxr).2.2, pyLookup_eq_none]
            intro hmem
            exact pyLookup_eq_none.mp hl (hInv.docSub x hmem)
        · exact d11 x hx
      · intro x hx
        have hxr : x ∉ rest := fun hxe => hx (List.mem_cons_of_mem _ hxe)
        exact d12 x hxr

/-- Lemma: `delete` preserves the store invariant on every path. -/
theorem StoreInv_deleteOp (s : CollState) (ids : Option (List String))
    (f : Bool) (hInv : StoreInv s) : StoreInv (deleteOp s ids f).1 := by
  cases ids with
  | none => exact hInv
  | some l =>
    simp only [deleteOp]
    split
    · exact hInv
    obtain ⟨sf, rem, del, heq⟩ : ∃ sf rem del, delLoop s l = (sf, rem, del) :=
      ⟨_, _, _, rfl⟩
    rw [heq]
    simp only
    have hsf := (delLoop_spec l s sf rem del heq hInv).1
    split
    · exact hsf
    split
    · exact hsf
    · exact StoreInv_set_index_disk hsf _ _

/-- Any sequence of `add`/`delete` calls from a fresh collection keeps the
invariant. -/
theorem StoreInv_applyOps (dm : Nat) (ops : List Op) :
    StoreInv (applyOps (initState dm) ops) := by
  suffices h : ∀ (s : CollState), StoreInv s → StoreInv (applyOps s ops) from
    h _ (StoreInv_initState dm)
  induction ops with
  | nil =>
    intro s h
    exact h
  | cons o rest ih =>
    intro s h
    rw [applyOps, List.foldl_cons]
    refine ih _ ?_
    cases o with
    | add ids embeds ms ds f => exact StoreInv_addOp s ids embeds ms ds f h
    | delete ids f => exact StoreInv_deleteOp s ids f h

/-! ## Helper lemmas for the claim theorems -/

theorem pyLookup_pyIns_ne [DecidableEq α] {m : List (α × β)} {k a : α} {v : β}
    (h : k ≠ a) : pyLookup (pyIns m k v) a = pyLookup m a := by
  induction m with
  | nil => simp [pyIns, pyLookup, h]
  | cons p t ih =>
    obtain ⟨x, y⟩ := p
    by_cases hx : x = k
    · subst hx
      simp [pyIns, pyLookup, h]
    · by_cases ha : x = a
      · subst ha
        simp [pyIns, pyLookup, hx]
      · simp [pyIns, pyLookup, hx, ha, ih]

theorem mkRows_rid (ids : List String) :
    ∀ (embeds : List (List ℚ)) (ms : Option (List Meta))
      (ds : Option (List String)),
    (mkRows ids embeds ms ds).map Row.rid = ids := by
  induction ids with
  | nil =>
    intro embeds ms ds
    rfl
  | cons i ids ih => intro embeds ms ds; simp [mkRows, ih]

/-- An id that is fresh at call time and occurs among the rows ends up in
`added_doc_ids`. -/
theorem addLoop_added_of_fresh (rows : List Row) :
    ∀ (s sf : CollState) (toAdd : List (Nat × List ℚ)) (added : List String)
      (a : String),
    addLoop s rows = (sf, toAdd, added) →
    (∃ r ∈ rows, r.rid = a) →
    pyLookup s.doc_id_to_faiss_id a = none →
    a ∈ added := by
  induction rows with
  | nil =>
    intro s sf toAdd added a _ hr _
    simp at hr
  | cons r rest ih =>
    intro s sf toAdd added a heq hr hfresh
    by_cases hsome : (pyLookup s.doc_id_to_faiss_id r.rid).isSome
    · rw [show addLoop s (r :: rest) = addLoop s rest by simp [addLoop, hsome]] at heq
      obtain ⟨r', hr', rfl⟩ := hr
      rcases List.mem_cons.mp hr' with rfl | hr'
      · rw [hfresh] at hsome
        simp at hsome
      · exact ih s sf toAdd added _ heq ⟨r', hr', rfl⟩ hfresh
    · set s1 : CollState :=
        { s with
          doc_id_to_faiss_id := pyIns s.doc_id_to_faiss_id r.rid s.next_internal_id
          faiss_id_to_doc_id := pyIns s.faiss_id_to_doc_id s.next_internal_id r.rid
          metadata_store :=
            match r.meta? with
            | some m => pyIns s.metadata_store r.rid m
            | none => s.metadata_store
          doc_store :=
            match r.doc? with
            | some d => pyIns s.doc_store r.rid d
            | none => s.doc_store
          next_internal_id := s.next_internal_id + 1
          assigned := s.assigned ++ [s.next_internal_id] } with hs1
      obtain ⟨sf', toAdd', added', heq'⟩ : ∃ sf' toAdd' added',
          addLoop s1 rest = (sf', toAdd', added') := ⟨_, _, _, rfl⟩
      have heq2 : added = r.rid :: added' := by
        rw [show addLoop s (r :: rest) =
            (match addLoop s1 rest with
             | (sf, toAdd, added) =>
               (sf, (s.next_internal_id, r.emb) :: toAdd, r.rid :: added)) by
          simp [addLoop, hsome, hs1]] at heq
        rw [heq'] at heq
        simp at heq
        exact heq.2.2.symm
      subst heq2
      by_cases hra : r.rid = a
      · simp [hra]
      · obtain ⟨r', hr', rfl⟩ := hr
        rcases List.mem_cons.mp hr' with rfl | hr'
        · exact absurd rfl hra
        · refine List.mem_cons_of_mem _ (ih s1 sf' toAdd' added' _ heq' ⟨r', hr', rfl⟩ ?_)
          rw [hs1]
          simp only
          rw [pyLookup_pyIns_ne hra]
          exact hfresh

/-- Lemma: `get` only reads the id map and the two stores. -/
theorem getOp_eq_of_stores {s1 s2 : CollState}
    (h1 : s1.doc_id_to_faiss_id = s2.doc_id_to_faiss_id)
    (h2 : s1.metadata_store = s2.metadata_store)
    (h3 : s1.doc_store = s2.doc_store) (ids : Option (List String))
    (w : Option WhereClause) (lim off : Option Nat) (wd : Option WhereDoc)
    (im idc : Bool) :
    getOp s1 ids w lim off wd im idc = getOp s2 ids w lim off wd im idc := by
  simp only [getOp, getFiltered, h1, h2, h3]

/-- Over a list of live ids, `get`'s filter loop keeps exactly those whose
metadata and document pass the two filters. -/
theorem getFiltered_map_fst (s : CollState) (l : List String) (w : WhereClause)
    (wd : WhereDoc) (hlive : ∀ a ∈ l, (pyLookup s.doc_id_to_faiss_id a).isSome) :
    (getFiltered s l (some w) (some wd)).map Prod.fst =
      l.filter (fun a => matchesWhere (pyLookup s.metadata_store a) w &&
        matchesWhereDoc (pyLookup s.doc_store a) wd) := by
  induction l with
  | nil => rfl
  | cons a l ih =>
    have hsome := hlive a (List.mem_cons_self a l)
    have htail : ∀ x ∈ l, (pyLookup s.doc_id_to_faiss_id x).isSome = true := fun x hx =>
      hlive x (List.mem_cons_of_mem _ hx)
    by_cases hw : matchesWhere (pyLookup s.metadata_store a) w
    · by_cases hd : matchesWhereDoc (pyLookup s.doc_store a) wd
      · have hstep : getFiltered s (a :: l) (some w) (some wd) =
            (a, pyLookup s.metadata_store a, pyLookup s.doc_store a) ::
              getFiltered s l (some w) (some wd) := by
          simp [getFiltered, List.filterMap_cons, hsome, hw, hd]
        rw [hstep, List.map_cons, ih htail, List.filter_cons]
        simp [hw, hd]
      · have hstep : getFiltered s (a :: l) (some w) (some wd) =
            getFiltered s l (some w) (some wd) := by
          simp [getFiltered, List.filterMap_cons, hsome, hw, hd]
        rw [hstep, ih htail, List.filter_cons]
        simp [hw, hd]
    · have hstep : getFiltered s (a :: l) (some w) (some wd) =
          getFiltered s l (some w) (some wd) := by
        simp [getFiltered, List.filterMap_cons, hsome, hw]
      rw [hstep, ih htail, List.filter_cons]
      simp [hw]

/-! ## Claim theorems -/

/-- C1: the claim states that when generation is requested and the injected
LLM step throws after reranking, `RAGHybridFusedRerank.forward` still returns
the reranked candidates with a null answer.  The source has no `try`/`except`
around `self.generate(...)`: this theorem evaluates the pipeline at every
failing-generation input and shows the exception propagates out of `forward`
(first conjunct), while the null-answer result shape does exist and is used
on the `use_llm=False` path (second conjunct).  So the code contradicts the
claim: a generation failure is a hard failure of `forward`. -/
theorem ragForward_generation_failure_propagates (vec kw : List RDoc)
    (score : String → ℚ) (k : Nat) (gen : Except Unit String) :
    ragForward vec kw score k true (Except.error ()) = Except.error () ∧
    ragForward vec kw score k false gen =
      Except.ok (rerankDocs score (fuseDocs (vec ++ kw)) k, none) := by
  constructor <;> rfl

/-- C4 counterexample: `add` with an empty id list and a non-empty embedding
list has mismatched input lengths (0 ≠ 1) and an embedding whose length 2
differs from the configured dimension 1, yet it returns normally (the
`if not ids or not embeddings: return` guard fires before any validation)
instead of raising a validation error as the claim states. -/
theorem addOp_empty_ids_skips_validation :
    ([] : List String).length ≠ ([[(0 : ℚ), 0]] : List (List ℚ)).length ∧
    (∀ e ∈ ([[(0 : ℚ), 0]] : List (List ℚ)), e.length ≠ (initState 1).dim) ∧
    addOp (initState 1) [] [[(0 : ℚ), 0]] none none false =
      (initState 1, Except.ok ()) := by
  refine ⟨by decide, by decide, rfl⟩

/-- C4 (amended): for every `add` call whose `ids` and `embeddings` are both
non-empty, if the lengths of `ids` and `embeddings` disagree, or `metadatas`
(resp. `documents`) is non-empty with a disagreeing length, or any
embedding's length differs from the configured dimension, then `add` raises
a validation error and leaves the state — all four maps,
`next_internal_id`, the index and the persisted files — completely
unchanged. -/
theorem addOp_validation_rejects_before_mutation (s : CollState)
    (ids : List String) (embeds : List (List ℚ)) (ms : Option (List Meta))
    (ds : Option (List String)) (f : Bool)
    (hne : ¬ids.isEmpty) (hene : ¬embeds.isEmpty)
    (hbad : ids.length ≠ embeds.length ∨
      (truthy ms = true ∧ ids.length ≠ (ms.getD []).length) ∨
      (truthy ds = true ∧ ids.length ≠ (ds.getD []).length) ∨
      (∃ e ∈ embeds, e.length ≠ s.dim)) :
    ∃ err, addOp s ids embeds ms ds f = (s, Except.error err) := by
  rw [addOp, if_neg (by simp [hne, hene])]
  by_cases h1 : ids.length ≠ embeds.length
  · rw [if_pos h1]
    exact ⟨_, rfl⟩
  rw [if_neg h1]
  by_cases h2 : truthy ms = true ∧ ids.length ≠ (ms.getD []).length
  · rw [if_pos h2]
    exact ⟨_, rfl⟩
  rw [if_neg h2]
  by_cases h3 : truthy ds = true ∧ ids.length ≠ (ds.getD []).length
  · rw [if_pos h3]
    exact ⟨_, rfl⟩
  rw [if_neg h3]
  by_cases h4 : embeds.any (fun e => decide (e.length ≠ s.dim)) = true
  · rw [if_pos h4]
    exact ⟨_, rfl⟩
  exfalso
  rcases hbad with h | h | h | h
  · exact h1 h
  · exact h2 h
  · exact h3 h
  · obtain ⟨e, he, hlen⟩ := h
    exact h4 (List.any_eq_true.mpr ⟨e, he, by simp [hlen]⟩)

/-- C4 witness: a concrete rejected call — one id, one embedding of length 1
against dimension 2 — errors and leaves the fresh store untouched. -/
theorem addOp_validation_rejects_before_mutation_witness :
    ∃ err, addOp (initState 2) ["a"] [[(0 : ℚ)]] none none false =
      (initState 2, Except.error err) :=
  addOp_validation_rejects_before_mutation (initState 2) ["a"] [[(0 : ℚ)]]
    none none false (by decide) (by decide)
    (Or.inr (Or.inr (Or.inr ⟨[(0 : ℚ)], by simp, by decide⟩)))

/-- A small live collection used as a concrete witness input: two records
`"a"`/`"b"` with one-dimensional embeddings, metadata and documents. -/
def sampleStore : CollState :=
  { dim := 1, index := [(0, [1]), (1, [2])],
    metadata_store := [("a", [("k", "v")]), ("b", [("k", "x")])],
    doc_store := [("a", "docA"), ("b", "docB")],
    faiss_id_to_doc_id := [(0, "a"), (1, "b")],
    doc_id_to_faiss_id := [("a", 0), ("b", 1)],
    next_internal_id := 2, disk := none, assigned := [0, 1] }

/-- C9: re-adding an existing `external_id` (here: a one-element `add` call
carrying that id) is a no-op: the call returns without error and the state —
including the index entry holding the stored embedding, the document and
metadata stores, and `count()` — is exactly the state before the call. -/
theorem addOp_existing_id_noop (s : CollState) (x : String) (i : Nat)
    (e : List ℚ) (m : Meta) (d : String) (f : Bool)
    (hx : pyLookup s.doc_id_to_faiss_id x = some i)
    (he : e.length = s.dim) :
    addOp s [x] [e] (some [m]) (some [d]) f = (s, Except.ok ()) := by
  have hrow : mkRows [x] [e] (some [m]) (some [d]) =
      [{ rid := x, emb := e, meta? := some m, doc? := some d }] := by
    simp [mkRows, truthy]
  have hloop : addLoop s (mkRows [x] [e] (some [m]) (some [d])) = (s, [], []) := by
    rw [hrow, addLoop]
    simp [hx, addLoop]
  rw [addOp]
  rw [if_neg (by simp)]
  rw [if_neg (by simp)]
  rw [if_neg (by simp [truthy])]
  rw [if_neg (by simp [truthy])]
  rw [if_neg (by simp [he])]
  rw [hloop]
  rfl

/-- C9 witness: re-adding `"a"` to the sample store with a different
embedding, metadata and document changes nothing and reports success. -/
theorem addOp_existing_id_noop_witness :
    addOp sampleStore ["a"] [[9]] (some [[("z", "w")]]) (some ["zz"]) false =
      (sampleStore, Except.ok ()) :=
  addOp_existing_id_noop sampleStore "a" 0 [9] [("z", "w")] "zz" false
    (by decide) (by decide)

/-- C2 counterexample: when the index file exists and loads cleanly (an
`IndexIDMap` of the right dimension holding one vector) but the metadata file
is missing, the claim says the store reinitialises empty with `count() = 0`;
the code keeps the loaded index, so `count()` is 1. -/
theorem loadState_index_only_count_nonzero :
    countOp (loadState 1
      (some (Except.ok { isIDMap := true, d := 1, entries := [(0, [(1 : ℚ)])] }))
      none) ≠ 0 := by
  decide

/-- C2 (amended): `_load` recovers asymmetrically.  When the metadata blob is
present but the index file is missing, unreadable, or the metadata blob
itself is unreadable, the store is fully reinitialised empty (equal to a
fresh collection).  But when the index file loads as an `IndexIDMap` of the
configured dimension and the metadata file is merely missing, the loaded
index is kept with empty maps: `get` and `query` then return no records,
while `count()` reports the surviving index's vector count instead of 0. -/
theorem loadState_halfstate_recovery (dm : Nat) (sd : SavedData)
    (li : LoadedIndex) :
    (loadState dm none (some (Except.ok sd)) = initState dm) ∧
    (loadState dm (some (Except.error ())) (some (Except.ok sd)) = initState dm) ∧
    (loadState dm (some (Except.ok li)) (some (Except.error ())) = initState dm) ∧
    (li.isIDMap = true → li.d = dm →
      (loadState dm (some (Except.ok li)) none).doc_id_to_faiss_id = [] ∧
      (loadState dm (some (Except.ok li)) none).faiss_id_to_doc_id = [] ∧
      (loadState dm (some (Except.ok li)) none).metadata_store = [] ∧
      (loadState dm (some (Except.ok li)) none).doc_store = [] ∧
      (loadState dm (some (Except.ok li)) none).next_internal_id = 0 ∧
      countOp (loadState dm (some (Except.ok li)) none) = li.entries.length ∧
      (getOp (loadState dm (some (Except.ok li)) none) none none none none none
        true true).ids = [] ∧
      (∀ q n, q.length = dm → ∃ r,
        queryOp (loadState dm (some (Except.ok li)) none) [q] n true true
          none none = Except.ok r ∧ r.ids.flatten = [])) := by
  obtain ⟨im, d0, es⟩ := li
  refine ⟨by simp [loadState], by simp [loadState], ?_, ?_⟩
  · by_cases him : im = false
    · simp [loadState, him]
    · rw [show im = true by revert him; cases im <;> simp]
      by_cases hd : d0 ≠ dm
      · simp [loadState, hd]
      · push_neg at hd
        subst hd
        simp [loadState]
  · intro him hd
    simp only at him hd
    subst him hd
    have hload : loadState d0 (some (Except.ok ⟨true, d0, es⟩)) none =
        { dim := d0, index := es, metadata_store := [], doc_store := [],
          faiss_id_to_doc_id := [], doc_id_to_faiss_id := [],
          next_internal_id := 0, disk := none, assigned := [] } := by
      simp [loadState]
    rw [hload]
    refine ⟨rfl, rfl, rfl, rfl, rfl, rfl, by simp [getOp, getFiltered, keysOf], ?_⟩
    intro q n hq
    by_cases hes : es.isEmpty
    · exact ⟨emptyQueryResult, by simp [queryOp, hes], by simp [emptyQueryResult]⟩
    · by_cases hk : Nat.min n es.length = 0
      · refine ⟨emptyQueryResult, ?_, by simp [emptyQueryResult]⟩
        simp [queryOp, hes, hq, hk]
      · refine ⟨{ ids := [[]], metadatas := some [[]], documents := some [[]] },
          ?_, by simp⟩
        simp [queryOp, hes, hq, hk, pyLookup]

/-- C2 witness: the amended behaviour at concrete inputs — a metadata-only
store reinitialises to the fresh state, and an index-only store (one vector)
keeps `count() = 1` while `get` returns nothing. -/
theorem loadState_halfstate_recovery_witness :
    loadState 1 none
      (some (Except.ok (SavedData.mk [("a", [("k", "v")])] [("a", "docA")]
        [(0, "a")] 7))) = initState 1 ∧
    countOp (loadState 1
      (some (Except.ok (LoadedIndex.mk true 1 [(0, [(1 : ℚ)])]))) none) = 1 ∧
    (getOp (loadState 1
      (some (Except.ok (LoadedIndex.mk true 1 [(0, [(1 : ℚ)])]))) none)
      none none none none none true true).ids = [] := by
  have h := loadState_halfstate_recovery 1
    (SavedData.mk [("a", [("k", "v")])] [("a", "docA")] [(0, "a")] 7)
    (LoadedIndex.mk true 1 [(0, [(1 : ℚ)])])
  exact ⟨h.1, ((h.2.2.2 rfl rfl).2.2.2.2.2.1).trans rfl,
    (h.2.2.2 rfl rfl).2.2.2.2.2.2.1⟩

/-- C3 counterexample: `query` against a two-record store with an equality
`where` filter matching only record `"a"` still returns both `"a"` and
`"b"`, although `"b"`'s metadata fails the filter — the neighbour list is
not narrowed at all. -/
theorem queryOp_where_not_applied :
    (queryOp sampleStore [[0]] 2 true true (some [("k", "v")]) none) =
      Except.ok
        { ids := [["a", "b"]],
          metadatas := some [[[("k", "v")], [("k", "x")]]],
          documents := some [["docA", "docB"]] } ∧
    matchesWhere (pyLookup sampleStore.metadata_store "b") [("k", "v")] = false := by
  constructor
  · have hcond : nearer [(0 : ℚ)] (0, [1]) (1, [2]) := by
      show sqDist [0] [1] ≤ sqDist [0] [2]
      norm_num [sqDist]
    have hsort : sampleStore.index.insertionSort (nearer [(0 : ℚ)]) =
        [(0, [1]), (1, [2])] := by
      show List.insertionSort _ [(0, [1]), (1, [2])] = _
      simp [List.insertionSort, List.orderedInsert, hcond]
    have hhead : ([[(0 : ℚ)]].headD []) = [(0 : ℚ)] := rfl
    simp only [queryOp, hhead, hsort]
    decide
  · decide

/-- C3 (amended): `query` accepts any `where`/`where_document` clause but
ignores it completely (the result is identical to the unfiltered query, for
every store and argument list), while `get` fully honours both filters: its
result ids are exactly the live ids whose metadata passes the equality
filter and whose document passes the `$contains` filter. -/
theorem queryOp_ignores_filters_getOp_honours_them :
    (∀ (s : CollState) (qembs : List (List ℚ)) (n : Nat) (im idc : Bool)
      (w : Option WhereClause) (wd : Option WhereDoc),
      queryOp s qembs n im idc w wd = queryOp s qembs n im idc none none) ∧
    (∀ (s : CollState) (w : WhereClause) (wd : WhereDoc),
      (getOp s none (some w) none none (some wd) true true).ids =
        (keysOf s.doc_id_to_faiss_id).filter
          (fun a => matchesWhere (pyLookup s.metadata_store a) w &&
            matchesWhereDoc (pyLookup s.doc_store a) wd)) := by
  constructor
  · intro s qembs n im idc w wd
    rfl
  · intro s w wd
    have hlive : ∀ a ∈ keysOf s.doc_id_to_faiss_id,
        (pyLookup s.doc_id_to_faiss_id a).isSome := fun a ha =>
      pyLookup_isSome_of_mem ha
    simp only [getOp, Option.getD_none, List.drop_zero]
    exact getFiltered_map_fst s _ w wd hlive

/-- C5: when `index.add_with_ids` throws during an `add` that passed
validation and had at least one genuinely new id, the call re-raises the
error and rolls back every provisional entry of the document, metadata and
id maps — the four maps return exactly to their pre-call contents — while
`next_internal_id` stays advanced (strictly greater than before), the index
is unchanged and nothing new is persisted. -/
theorem addOp_insert_failure_rollback (s : CollState) (ids : List String)
    (embeds : List (List ℚ)) (ms : Option (List Meta))
    (ds : Option (List String)) (hInv : StoreInv s)
    (hne : ¬ids.isEmpty) (hene : ¬embeds.isEmpty)
    (hlen : ids.length = embeds.length)
    (hm : truthy ms = true → ids.length = (ms.getD []).length)
    (hd : truthy ds = true → ids.length = (ds.getD []).length)
    (hdim : ∀ e ∈ embeds, e.length = s.dim)
    (hfresh : ∃ a ∈ ids, pyLookup s.doc_id_to_faiss_id a = none) :
    ∃ sAfter, addOp s ids embeds ms ds true =
        (sAfter, Except.error AddError.indexAddFailed) ∧
      sAfter.doc_id_to_faiss_id = s.doc_id_to_faiss_id ∧
      sAfter.faiss_id_to_doc_id = s.faiss_id_to_doc_id ∧
      sAfter.metadata_store = s.metadata_store ∧
      sAfter.doc_store = s.doc_store ∧
      s.next_internal_id < sAfter.next_internal_id ∧
      sAfter.index = s.index ∧
      sAfter.disk = s.disk := by
  obtain ⟨sf, toAdd, added, heq⟩ : ∃ sf toAdd added,
      addLoop s (mkRows ids embeds ms ds) = (sf, toAdd, added) := ⟨_, _, _, rfl⟩
  obtain ⟨a, ha, hafresh⟩ := hfresh
  have hamem : a ∈ added := by
    refine addLoop_added_of_fresh _ s sf toAdd added a heq ?_ hafresh
    rw [← mkRows_rid ids embeds ms ds] at ha
    obtain ⟨r, hr, hr2⟩ := List.mem_map.mp ha
    exact ⟨r, hr, hr2⟩
  obtain ⟨ext, extm, extd, c1, c2, c3, c4, c5, c6, c7, c8, c9, c10, c11, c12,
    c13, c14, c15, c16⟩ :=
    addLoop_spec _ s sf toAdd added heq hInv.fidLt hInv.metaSub hInv.docSub
  have hextpos : 0 < ext.length := by
    rw [c5] at hamem
    cases ext with
    | nil => simp at hamem
    | cons p t => simp
  have htoAdd : ¬toAdd.isEmpty = true := by
    have : toAdd.length = ext.length := by
      rw [← length_idRange s.next_internal_id ext.length, ← c14,
        List.length_map]
    rw [List.isEmpty_iff_length_eq_zero, this]
    omega
  rw [addOp, if_neg (by simp [hne, hene]), if_neg (by simp [hlen]),
    if_neg (fun h => h.2 (hm h.1)), if_neg (fun h => h.2 (hd h.1)),
    if_neg (by
      simp only [List.any_eq_true, decide_eq_true_eq]
      rintro ⟨e, he, hc⟩
      exact hc (hdim e he))]
  rw [heq]
  simp only
  rw [if_neg htoAdd]
  rw [StoreInv_rollback heq hInv]
  refine ⟨_, rfl, rfl, rfl, rfl, rfl, ?_, c11, c12⟩
  simp only [c9]
  omega

/-- C5 witness: adding two fresh ids to the sample store with a failing
index insert returns the error, restores the maps and leaves
`next_internal_id` advanced from 2 to 4. -/
theorem addOp_insert_failure_rollback_witness :
    ∃ sAfter, addOp sampleStore ["c", "d"] [[3], [4]] none none true =
        (sAfter, Except.error AddError.indexAddFailed) ∧
      sAfter.doc_id_to_faiss_id = sampleStore.doc_id_to_faiss_id ∧
      sAfter.faiss_id_to_doc_id = sampleStore.faiss_id_to_doc_id ∧
      sAfter.metadata_store = sampleStore.metadata_store ∧
      sAfter.doc_store = sampleStore.doc_store ∧
      sampleStore.next_internal_id < sAfter.next_internal_id ∧
      sAfter.index = sampleStore.index ∧
      sAfter.disk = sampleStore.disk :=
  addOp_insert_failure_rollback sampleStore ["c", "d"] [[3], [4]] none none
    (by constructor <;> decide) (by decide) (by decide) (by decide)
    (by intro h; simp [truthy] at h) (by intro h; simp [truthy] at h)
    (by intro e he; fin_cases he <;> decide)
    ⟨"c", by decide, by decide⟩

/-- C6: after any sequence of `add`/`delete` calls (with arbitrary arguments
and arbitrary index-failure oracles) on a collection created empty, the two
id maps form a total bijection between the live external ids and their
internal ids — the lookups invert each other — and the internal ids ever
assigned (ghost-recorded in `assigned`, which always contains every mapped
id) are pairwise distinct and all strictly below `next_internal_id`, so an
internal id is never reused even after deletion. -/
theorem id_maps_total_bijection (dm : Nat) (ops : List Op) :
    (∀ (a : String) (i : Nat),
      pyLookup (applyOps (initState dm) ops).doc_id_to_faiss_id a = some i ↔
        pyLookup (applyOps (initState dm) ops).faiss_id_to_doc_id i = some a) ∧
    (∀ p ∈ (applyOps (initState dm) ops).doc_id_to_faiss_id,
      p.2 ∈ (applyOps (initState dm) ops).assigned) ∧
    (applyOps (initState dm) ops).assigned.Nodup ∧
    (∀ i ∈ (applyOps (initState dm) ops).assigned,
      i < (applyOps (initState dm) ops).next_internal_id) := by
  have h := StoreInv_applyOps dm ops
  refine ⟨h.lookup_inverse, ?_, h.assignedNd, h.assignedLt⟩
  intro p hp
  exact h.valsAssigned p.2 (List.mem_map_of_mem Prod.snd hp)

/-- C7: after any sequence of mutations from an empty collection, saving the
store (`_save`'s index file and metadata blob) and constructing a new store
from those files with the same dimension yields a store with the same
`count()` and an identical `get` over all ids — same external ids, same
documents, same metadata. -/
theorem save_load_roundtrip (dm : Nat) (ops : List Op) :
    countOp (loadState (applyOps (initState dm) ops).dim
        (some (Except.ok (saveIndexFile (applyOps (initState dm) ops))))
        (some (Except.ok (saveMetaFile (applyOps (initState dm) ops))))) =
      countOp (applyOps (initState dm) ops) ∧
    getOp (loadState (applyOps (initState dm) ops).dim
        (some (Except.ok (saveIndexFile (applyOps (initState dm) ops))))
        (some (Except.ok (saveMetaFile (applyOps (initState dm) ops)))))
        none none none none none true true =
      getOp (applyOps (initState dm) ops) none none none none none true true := by
  set s := applyOps (initState dm) ops with hs
  have hInv := StoreInv_applyOps dm ops
  rw [← hs] at hInv
  have hload : loadState s.dim (some (Except.ok (saveIndexFile s)))
      (some (Except.ok (saveMetaFile s))) =
      { dim := s.dim, index := s.index, metadata_store := s.metadata_store,
        doc_store := s.doc_store, faiss_id_to_doc_id := s.faiss_id_to_doc_id,
        doc_id_to_faiss_id := s.faiss_id_to_doc_id.map swapPair,
        next_internal_id := s.next_internal_id, disk := none,
        assigned := [] } := by
    simp [loadState, saveIndexFile, saveMetaFile]
  have hdid : s.faiss_id_to_doc_id.map swapPair = s.doc_id_to_faiss_id := by
    rw [hInv.fidEq, map_swapPair_swapPair]
  constructor
  · rw [hload]
    rfl
  · rw [hload]
    exact @getOp_eq_of_stores
      { dim := s.dim, index := s.index, metadata_store := s.metadata_store,
        doc_store := s.doc_store, faiss_id_to_doc_id := s.faiss_id_to_doc_id,
        doc_id_to_faiss_id := s.faiss_id_to_doc_id.map swapPair,
        next_internal_id := s.next_internal_id, disk := none, assigned := [] }
      s hdid rfl rfl none none none none none true true

/-- C10: `delete` never raises — for every id list and both remove-oracle
outcomes the call returns a normal result (first conjunct).  When
`index.remove_ids` fails, the exception is caught: the call still returns
every requested id that was present in the id maps (and only requested
ids), those ids are gone from the id, metadata and document maps, yet the
index and the persisted files are untouched, so `count()` — the index's
vector total — still reports the old total and can exceed the number of
live mapped records. -/
theorem deleteOp_swallows_remove_failure (s : CollState) (l : List String)
    (hInv : StoreInv s) :
    (∀ (ids : Option (List String)) (f : Bool),
      ∃ del, (deleteOp s ids f).2 = Except.ok del) ∧
    (∃ del, (deleteOp s (some l) true).2 = Except.ok del ∧
      (∀ a ∈ l, (pyLookup s.doc_id_to_faiss_id a).isSome → a ∈ del) ∧
      (∀ a ∈ del, a ∈ l)) ∧
    (deleteOp s (some l) true).1.index = s.index ∧
    (deleteOp s (some l) true).1.disk = s.disk ∧
    countOp (deleteOp s (some l) true).1 = countOp s ∧
    (∀ a ∈ l, pyLookup (deleteOp s (some l) true).1.doc_id_to_faiss_id a = none ∧
      pyLookup (deleteOp s (some l) true).1.metadata_store a = none ∧
      pyLookup (deleteOp s (some l) true).1.doc_store a = none) := by
  have hmain : ∀ (l' : List String), ¬l'.isEmpty →
      deleteOp s (some l') true = ((delLoop s l').1, Except.ok (delLoop s l').2.2) := by
    intro l' hne
    obtain ⟨sf, rem, del, heq⟩ : ∃ sf rem del, delLoop s l' = (sf, rem, del) :=
      ⟨_, _, _, rfl⟩
    rw [deleteOp, if_neg hne]
    simp only [heq]
    split <;> rfl
  have hnever : ∀ (ids : Option (List String)) (f : Bool),
      ∃ del, (deleteOp s ids f).2 = Except.ok del := by
    intro ids f
    cases ids with
    | none => exact ⟨[], rfl⟩
    | some l' =>
      by_cases hne : l'.isEmpty
      · exact ⟨[], by simp [deleteOp, hne]⟩
      · obtain ⟨sf, rem, del, heq⟩ : ∃ sf rem del, delLoop s l' = (sf, rem, del) :=
          ⟨_, _, _, rfl⟩
        refine ⟨del, ?_⟩
        rw [deleteOp, if_neg hne]
        simp only [heq]
        split
        · rfl
        · split <;> rfl
  by_cases hle : l.isEmpty
  · have hl : l = [] := by
      cases l with
      | nil => rfl
      | cons a t => simp at hle
    subst hl
    exact ⟨hnever, ⟨[], by simp [deleteOp], by simp, by simp⟩,
      by simp [deleteOp], by simp [deleteOp], by simp [deleteOp], by simp⟩
  · obtain ⟨sf, rem, del, heq⟩ : ∃ sf rem del, delLoop s l = (sf, rem, del) :=
      ⟨_, _, _, rfl⟩
    obtain ⟨d1, d2, d3, d4, d5, d6, d7, d8, d9, d10, d11, d12⟩ :=
      delLoop_spec l s sf rem del heq hInv
    have hres : deleteOp s (some l) true = (sf, Except.ok del) := by
      rw [hmain l hle, heq]
    refine ⟨hnever, ⟨del, by rw [hres], d8, d9⟩, by rw [hres]; exact d2,
      by rw [hres]; exact d3, by rw [hres]; simp [countOp, d2], ?_⟩
    intro a ha
    rw [hres]
    exact ⟨d7 a ha, d10 a ha, d11 a ha⟩

/-- C10 witness: deleting `"a"` from the sample store with a failing index
removal still returns `["a"]`, unmaps it everywhere, and keeps both index
vectors, so `count()` stays 2 with only one live mapped record. -/
theorem deleteOp_swallows_remove_failure_witness :
    (∃ del, (deleteOp sampleStore (some ["a"]) true).2 = Except.ok del ∧
      (∀ a ∈ ["a"], (pyLookup sampleStore.doc_id_to_faiss_id a).isSome →
        a ∈ del) ∧ (∀ a ∈ del, a ∈ ["a"])) ∧
    countOp (deleteOp sampleStore (some ["a"]) true).1 = 2 ∧
    pyLookup (deleteOp sampleStore (some ["a"]) true).1.doc_id_to_faiss_id
      "a" = none := by
  have h := deleteOp_swallows_remove_failure sampleStore ["a"]
    (by constructor <;> decide)
  exact ⟨h.2.1, (h.2.2.2.2.1).trans (by decide),
    (h.2.2.2.2.2 "a" (by decide)).1⟩

/-- The collect loop equals "positive prefix, then cap at `k`". -/
theorem bmCollect_eq (l : List (Nat × ℚ)) (k : Nat) :
    bmCollect l k = (l.takeWhile (fun p => decide (0 < p.2))).take k := by
  induction l generalizing k with
  | nil => cases k <;> simp [bmCollect]
  | cons p t ih =>
    cases k with
    | zero => simp [bmCollect]
    | succ k =>
      by_cases hp : p.2 ≤ 0
      · have h0 : ¬(0 < p.2) := not_lt.mpr hp
        simp [bmCollect, hp, List.takeWhile_cons, h0]
      · have h0 : 0 < p.2 := lt_of_not_ge hp
        simp [bmCollect, hp, List.takeWhile_cons, h0, ih]

/-- In a descending-sorted list the positive entries form a prefix, so the
positive-prefix length is the whole positive count. -/
theorem length_takeWhile_pos_of_sorted (l : List (Nat × ℚ))
    (h : l.Sorted scoreGe) :
    (l.takeWhile (fun p => decide (0 < p.2))).length =
      l.countP (fun p => decide (0 < p.2)) := by
  induction l with
  | nil => simp
  | cons p t ih =>
    rw [List.sorted_cons] at h
    by_cases hp : 0 < p.2
    · simp [List.takeWhile_cons, hp, List.countP_cons, ih h.2]
    · have hzero : t.countP (fun p => decide (0 < p.2)) = 0 := by
        rw [List.countP_eq_zero]
        intro q hq
        have hle : q.2 ≤ p.2 := h.1 q hq
        simp only [decide_eq_true_eq]
        intro h0
        exact hp (lt_of_lt_of_le h0 hle)
      simp [List.takeWhile_cons, hp, List.countP_cons, hzero]

theorem countP_pos_enumFrom (l : List ℚ) (n : Nat) :
    (List.enumFrom n l).countP (fun p => decide (0 < p.2)) =
      l.countP (fun x => decide (0 < x)) := by
  induction l generalizing n with
  | nil => simp
  | cons a t ih => simp [List.enumFrom, List.countP_cons, ih]

theorem countP_pos_enum (l : List ℚ) :
    l.enum.countP (fun p => decide (0 < p.2)) =
      l.countP (fun x => decide (0 < x)) :=
  countP_pos_enumFrom l 0

theorem mem_enumFrom_getElem (l : List ℚ) (n : Nat) (p : Nat × ℚ)
    (h : p ∈ List.enumFrom n l) : n ≤ p.1 ∧ l[p.1 - n]? = some p.2 := by
  induction l generalizing n with
  | nil => simp [List.enumFrom] at h
  | cons a t ih =>
    rw [List.enumFrom] at h
    rcases List.mem_cons.mp h with rfl | h
    · simp
    · obtain ⟨h1, h2⟩ := ih (n + 1) h
      refine ⟨by omega, ?_⟩
      rw [show p.1 - n = (p.1 - (n + 1)) + 1 by omega]
      simpa using h2

/-- C8: `BM25Retriever.forward` returns only corpus positions with strictly
positive BM25 score (each carrying exactly its own score), in descending
score order, and it stops as soon as `k` positive-scoring candidates are
collected: the result length is the minimum of `k` and the number of
positive scores, so a non-positive position is never returned even when
fewer than `k` positive positions exist. -/
theorem bm25Forward_spec (scores : List ℚ) (corpus : List String)
    (docIds : List (Option String)) (metas : List Meta) (k : Nat) :
    (∀ d ∈ bm25Forward scores corpus docIds metas k, 0 < d.score) ∧
    ((bm25Forward scores corpus docIds metas k).map BMDoc.score).Sorted
      (fun a b : ℚ => b ≤ a) ∧
    (bm25Forward scores corpus docIds metas k).length =
      min k (scores.countP (fun x => decide (0 < x))) ∧
    (∀ d ∈ bm25Forward scores corpus docIds metas k,
      scores[d.pos]? = some d.score) := by
  have hsorted : (scores.enum.insertionSort scoreGe).Sorted scoreGe :=
    List.sorted_insertionSort scoreGe scores.enum
  have hperm : (scores.enum.insertionSort scoreGe).Perm scores.enum :=
    List.perm_insertionSort scoreGe scores.enum
  have hcol : bmCollect (scores.enum.insertionSort scoreGe) k =
      ((scores.enum.insertionSort scoreGe).takeWhile
        (fun p => decide (0 < p.2))).take k := bmCollect_eq _ k
  have hsubTW : (((scores.enum.insertionSort scoreGe).takeWhile
      (fun p => decide (0 < p.2))).take k).Sublist
      (scores.enum.insertionSort scoreGe) :=
    (List.take_sublist _ _).trans (List.takeWhile_sublist _)
  have hmemsub : ∀ p ∈ bmCollect (scores.enum.insertionSort scoreGe) k,
      p ∈ scores.enum.insertionSort scoreGe := by
    intro p hp
    rw [hcol] at hp
    exact hsubTW.mem hp
  refine ⟨?_, ?_, ?_, ?_⟩
  · intro d hd
    obtain ⟨p, hp, rfl⟩ := List.mem_map.mp hd
    rw [hcol] at hp
    have := List.mem_takeWhile_imp ((List.take_sublist _ _).mem hp)
    simpa using this
  · rw [show (bm25Forward scores corpus docIds metas k).map BMDoc.score =
        (bmCollect (scores.enum.insertionSort scoreGe) k).map Prod.snd by
      simp [bm25Forward, Function.comp]]
    show List.Pairwise _ _
    rw [List.pairwise_map, hcol]
    exact hsorted.sublist hsubTW
  · rw [show (bm25Forward scores corpus docIds metas k).length =
        (bmCollect (scores.enum.insertionSort scoreGe) k).length by
      simp [bm25Forward]]
    rw [hcol, List.length_take, length_takeWhile_pos_of_sorted _ hsorted,
      hperm.countP_eq, countP_pos_enum]
  · intro d hd
    obtain ⟨p, hp, rfl⟩ := List.mem_map.mp hd
    have hpe : p ∈ scores.enum := hperm.mem_iff.mp (hmemsub p hp)
    have := mem_enumFrom_getElem scores 0 p (by simpa [List.enum] using hpe)
    simpa using this.2
